import Mathlib

/-!
# Echo servers and clients over `select` and `poll`

A shallow embedding of `server.c`, `server_poll.c`, `client.c` and
`client_poll.c`.  Socket handles are C `int`s (`Int`), bytes are natural
numbers with `0` the string terminator, and the effects of `close` and `send`
are recorded in traces carried by the server state.  An array access outside
its array is undefined behaviour in C and is modelled by `none`.
-/

namespace EchoServer

/-! ## Constants -/

/-- A byte of a C `char` array; `0` is the string terminator. -/
abbrev Byte := Nat

/-- The constant `MAX_CLIENTS` (`#define MAX_CLIENTS 10`). -/
def MAX_CLIENTS : Nat := 10

/-- The constant `BUFFER_SIZE` (`#define BUFFER_SIZE 1024`). -/
def BUFFER_SIZE : Nat := 1024

/-- The bytes of a string literal (all literals of the programs are ASCII). -/
def bytesOf (s : String) : List Byte := s.toList.map Char.toNat

/-- The literal in front of `%s` in the format string of `server.c`. -/
def SELECT_LITERAL : List Byte := bytesOf "Server received: "

/-- The literal in front of `%s` in the format string of `server_poll.c`. -/
def POLL_LITERAL : List Byte := bytesOf "Server (poll) received: "

/-- Modelled from the spec: the readiness flag "data ready" of `<poll.h>`, a
system header outside the repository (Linux value). -/
def POLLIN : Nat := 0x001

/-- Modelled from the spec: the out-of-band error flag of `<poll.h>`. -/
def POLLERR : Nat := 0x008

/-- Modelled from the spec: the out-of-band hang-up flag of `<poll.h>`. -/
def POLLHUP : Nat := 0x010

/-- Modelled from the spec: the invalid-descriptor flag of `<poll.h>`. -/
def POLLNVAL : Nat := 0x020

/-- Modelled from the spec: the would-block error number of `<errno.h>`
(`EWOULDBLOCK` and `EAGAIN` are the same number on Linux). -/
def EWOULDBLOCK : Int := 11

/-- Modelled from the spec: see `EWOULDBLOCK`. -/
def EAGAIN : Int := 11

/-! ## C strings and the echo transformation -/

/-- The C string that starts at the beginning of `mem`: the bytes before the
first terminator. -/
def cString (mem : List Byte) : List Byte := mem.takeWhile (fun b => b ≠ 0)

/-- The function `strlen`: the length of the C string at the start of `mem`. -/
def strlen (mem : List Byte) : Nat := (cString mem).length

/-- The buffer after `memset(buffer, 0, BUFFER_SIZE)` on `char buffer[BUFFER_SIZE]`. -/
def memsetZero : List Byte := List.replicate BUFFER_SIZE 0

/-- The buffer after `read(sd, buffer, BUFFER_SIZE)` returned the chunk `B`: the chunk is stored
at the start of the buffer, the rest of the buffer is untouched. -/
def readInto (buffer B : List Byte) : List Byte := B ++ buffer.drop B.length

/-- An assignment `a[idx] = v` to a `char` array; `none` when `idx` is not an
index of the array. -/
def storeByte (a : List Byte) (idx : Nat) (v : Byte) : Option (List Byte) :=
  if idx < a.length then some (a.set idx v) else none

/-- The array filled by `snprintf(response, size, LITERAL "%s", arg)`: at most `size - 1` bytes of
the formatted text are stored, followed by a terminator. -/
def snprintf (size : Nat) (literal arg : List Byte) : List Byte :=
  (literal ++ cString arg).take (size - 1) ++ [0]

/-- The echo path of both servers for a chunk `B` (`valread = B.length > 0`):
```
memset(buffer, 0, BUFFER_SIZE);
valread = read(sd, buffer, BUFFER_SIZE);
buffer[valread] = '\0';
snprintf(response, BUFFER_SIZE, LITERAL "%s", buffer);
send(sd, response, strlen(response), 0);
```
The result is the byte sequence handed to `send`; `none` when the terminator
store falls outside `buffer`. -/
def echoResponse (literal B : List Byte) : Option (List Byte) :=
  match storeByte (readInto memsetZero B) B.length 0 with
  | none => none
  | some buffer =>
    let response := snprintf BUFFER_SIZE literal buffer
    some (response.take (strlen response))

/-- The outcome of one `read(sd, buffer, BUFFER_SIZE)`. -/
inductive ReadResult where
  /-- A positive return value: the bytes stored in the buffer. -/
  | chunk (B : List Byte)
  /-- Return value `0`: the peer closed the connection. -/
  | eof
  /-- Return value `-1`, with the error number. -/
  | error (errno : Int)
deriving DecidableEq, Repr

/-- The integer returned by `read`. -/
def valread : ReadResult → Int
  | .chunk B => B.length
  | .eof => 0
  | .error _ => -1

/-- The bytes `read` stored in the buffer. -/
def readBytes : ReadResult → List Byte
  | .chunk B => B
  | _ => []

/-! ## `server.c`: the `select` server -/

/-- The state of `server.c` at the top of its `while (1)` loop, with the traces
of the handles passed to `close` and of the `(handle, bytes)` pairs passed to
`send`.  `client_sockets` is `int client_sockets[MAX_CLIENTS]`; a slot is empty
when it holds `0`. -/
structure SelectServer where
  server_fd : Int
  client_sockets : List Int
  closed : List Int
  sent : List (Int × List Byte)
deriving DecidableEq, Repr

/-- The state when the loop is entered: every slot holds `0`. -/
def SelectServer.init (server_fd : Int) : SelectServer :=
  { server_fd := server_fd, client_sockets := List.replicate MAX_CLIENTS 0,
    closed := [], sent := [] }

/-- The insertion loop (lines 119-125):
```
for (i = 0; i < MAX_CLIENTS; i++)
  if (client_sockets[i] == 0) { client_sockets[i] = new_socket; break; }
```
The scan runs over the slots from index 0; the first slot holding `0` receives
the handle and the scan stops; without such a slot nothing is written. -/
def addClient (new_socket : Int) : List Int → List Int
  | [] => []
  | c :: cs => if c = 0 then new_socket :: cs else c :: addClient new_socket cs

/-- The accept step (lines 106-127).  `readfds` is the set left by `select`,
`new_socket` the value returned by `accept` (negative on failure). -/
def selectAccept (readfds : List Int) (new_socket : Int) (s : SelectServer) :
    SelectServer :=
  if s.server_fd ∈ readfds then
    if new_socket < 0 then s
    else { s with client_sockets := addClient new_socket s.client_sockets }
  else s

/-- The removal statements of the dispatch loop (lines 143-144):
`close(sd); client_sockets[i] = 0;` -/
def selectRemove (i : Nat) (sd : Int) (s : SelectServer) : SelectServer :=
  { s with closed := s.closed ++ [sd], client_sockets := s.client_sockets.set i 0 }

/-- The body of the dispatch loop for slot `i` (lines 131-155).  `rd sd` is
what `read` returns on handle `sd`. -/
def selectBody (readfds : List Int) (rd : Int → ReadResult) (i : Nat)
    (s : SelectServer) : Option SelectServer :=
  match s.client_sockets[i]? with
  | none => none
  | some sd =>
    if sd ∈ readfds then
      if valread (rd sd) = 0 then some (selectRemove i sd s)
      else if valread (rd sd) > 0 then
        match echoResponse SELECT_LITERAL (readBytes (rd sd)) with
        | none => none
        | some response => some { s with sent := s.sent ++ [(sd, response)] }
      else some s
    else some s

/-- The dispatch loop `for (i = ...; i < MAX_CLIENTS; i++)` from index `i`
with `remaining` slots still to visit. -/
def selectDispatchFrom (readfds : List Int) (rd : Int → ReadResult) :
    Nat → Nat → SelectServer → Option SelectServer
  | _, 0, s => some s
  | i, remaining + 1, s =>
    match selectBody readfds rd i s with
    | none => none
    | some s1 => selectDispatchFrom readfds rd (i + 1) remaining s1

/-- The dispatch pass of `server.c` (lines 130-156). -/
def selectDispatch (readfds : List Int) (rd : Int → ReadResult)
    (s : SelectServer) : Option SelectServer :=
  selectDispatchFrom readfds rd 0 MAX_CLIENTS s

/-- One iteration of the `while (1)` loop of `server.c`. -/
def selectIteration (readfds : List Int) (new_socket : Int)
    (rd : Int → ReadResult) (s : SelectServer) : Option SelectServer :=
  selectDispatch readfds rd (selectAccept readfds new_socket s)

/-- The slots of `server.c` visited by a dispatch pass that hold a client, in
visiting order (increasing slot index). -/
def selectVisitOrder (s : SelectServer) : List Int :=
  s.client_sockets.filter (fun sd => sd ≠ 0)

/-! ## `server_poll.c`: the `poll` server -/

/-- A `struct pollfd`. -/
structure PollFd where
  fd : Int
  events : Nat
  revents : Nat
deriving DecidableEq, Repr

/-- The state of `server_poll.c` at the top of its `while (1)` loop, with the
traces of `close` and `send`.  `fds` is `struct pollfd fds[MAX_CLIENTS + 1]`. -/
structure PollServer where
  server_fd : Int
  fds : List PollFd
  nfds : Int
  closed : List Int
  sent : List (Int × List Byte)
deriving DecidableEq, Repr

/-- The state when the loop is entered (lines 33-39 and 76-78); `revents` is
not initialised by the program and is taken as `garbage`. -/
def PollServer.init (server_fd : Int) (garbage : Nat) : PollServer :=
  { server_fd := server_fd,
    fds := { fd := server_fd, events := POLLIN, revents := garbage } ::
      List.replicate MAX_CLIENTS { fd := -1, events := POLLIN, revents := garbage },
    nfds := 1, closed := [], sent := [] }

/-- Reading `fds[i]`; `none` when `i` is not an index of the array. -/
def fdsGet (fds : List PollFd) (i : Int) : Option PollFd :=
  if 0 ≤ i then fds[i.toNat]? else none

/-- Writing `fds[i] = e`; `none` when `i` is not an index of the array. -/
def fdsSet (fds : List PollFd) (i : Int) (e : PollFd) : Option (List PollFd) :=
  if 0 ≤ i ∧ i.toNat < fds.length then some (fds.set i.toNat e) else none

/-- The insertion block of the accept step (lines 110-119):
```
if (nfds < MAX_CLIENTS + 1) {
  fds[nfds].fd = new_socket; fds[nfds].events = POLLIN; nfds++;
} else {
  close(new_socket);
}
``` -/
def pollInsert (new_socket : Int) (s : PollServer) : Option PollServer :=
  if s.nfds < MAX_CLIENTS + 1 then
    match fdsGet s.fds s.nfds with
    | none => none
    | some e =>
      match fdsSet s.fds s.nfds { e with fd := new_socket, events := POLLIN } with
      | none => none
      | some fds1 => some { s with fds := fds1, nfds := s.nfds + 1 }
  else some { s with closed := s.closed ++ [new_socket] }

/-- The accept step (lines 98-121).  `new_socket` is the value returned by
`accept` (negative on failure). -/
def pollAccept (new_socket : Int) (s : PollServer) : Option PollServer :=
  match fdsGet s.fds 0 with
  | none => none
  | some listener =>
    if listener.revents &&& POLLIN ≠ 0 then
      if new_socket < 0 then some s
      else pollInsert new_socket s
    else some s

/-- The shifting loop `for (int j = i; j < nfds - 1; j++) fds[j] = fds[j + 1];`
from index `j` with `remaining` copies still to make. -/
def shiftFrom : List PollFd → Int → Nat → Option (List PollFd)
  | fds, _, 0 => some fds
  | fds, j, remaining + 1 =>
    match fdsGet fds (j + 1) with
    | none => none
    | some e =>
      match fdsSet fds j e with
      | none => none
      | some fds1 => shiftFrom fds1 (j + 1) remaining

/-- Removal of entry `i` (lines 137-145 and, with the same statements,
lines 162-170):
```
close(fds[i].fd);
for (int j = i; j < nfds - 1; j++) fds[j] = fds[j + 1];
fds[nfds - 1].fd = -1;
nfds--;
i--;
```
The result is the new state and the new value of the cursor `i`. -/
def removeEntry (i : Int) (s : PollServer) : Option (PollServer × Int) :=
  match fdsGet s.fds i with
  | none => none
  | some e =>
    match shiftFrom s.fds i (s.nfds - 1 - i).toNat with
    | none => none
    | some fds1 =>
      match fdsGet fds1 (s.nfds - 1) with
      | none => none
      | some last =>
        match fdsSet fds1 (s.nfds - 1) { last with fd := -1 } with
        | none => none
        | some fds2 =>
          some ({ s with fds := fds2, nfds := s.nfds - 1,
                         closed := s.closed ++ [e.fd] }, i - 1)

/-- The `if (fds[i].revents & POLLIN)` block of the dispatch loop
(lines 127-157). -/
def pollReadBlock (rd : Int → ReadResult) (i : Int) (s : PollServer) :
    Option (PollServer × Int) :=
  match fdsGet s.fds i with
  | none => none
  | some e =>
    if e.revents &&& POLLIN ≠ 0 then
      if valread (rd e.fd) = 0 then removeEntry i s
      else if valread (rd e.fd) > 0 then
        match echoResponse POLL_LITERAL (readBytes (rd e.fd)) with
        | none => none
        | some response => some ({ s with sent := s.sent ++ [(e.fd, response)] }, i)
      else some (s, i)
    else some (s, i)

/-- The `if (fds[i].revents & (POLLERR | POLLHUP | POLLNVAL))` block of the
dispatch loop (lines 160-171). -/
def pollErrorBlock (i : Int) (s : PollServer) : Option (PollServer × Int) :=
  match fdsGet s.fds i with
  | none => none
  | some e =>
    if e.revents &&& (POLLERR ||| POLLHUP ||| POLLNVAL) ≠ 0 then removeEntry i s
    else some (s, i)

/-- The body of the dispatch loop at cursor `i` (lines 125-171): the result is
the new state and the value of the cursor at the end of the body. -/
def pollBody (rd : Int → ReadResult) (i : Int) (s : PollServer) :
    Option (PollServer × Int) :=
  match fdsGet s.fds i with
  | none => none
  | some e =>
    if e.fd < 0 then some (s, i)
    else
      match pollReadBlock rd i s with
      | none => none
      | some (s1, i1) => pollErrorBlock i1 s1

/-- The result of running a loop of the model. -/
inductive Run (α : Type) where
  /-- The loop ended in this state. -/
  | done (a : α)
  /-- An array was accessed outside its bounds. -/
  | undefinedBehaviour
  /-- The iteration budget of the model was used up. -/
  | outOfFuel
deriving DecidableEq, Repr

/-- The dispatch loop `for (int i = ...; i < nfds; i++)` from cursor `i`. -/
def pollDispatchFrom (rd : Int → ReadResult) : Nat → Int → PollServer → Run PollServer
  | 0, _, _ => Run.outOfFuel
  | fuel + 1, i, s =>
    if i < s.nfds then
      match pollBody rd i s with
      | none => Run.undefinedBehaviour
      | some (s1, i1) => pollDispatchFrom rd fuel (i1 + 1) s1
    else Run.done s

/-- The dispatch pass of `server_poll.c` (lines 124-172).  Every turn of the
loop lowers `2 * nfds - i` by at least one, so `2 * nfds` turns are enough. -/
def pollDispatch (rd : Int → ReadResult) (s : PollServer) : Run PollServer :=
  pollDispatchFrom rd (2 * s.nfds.toNat + 1) 1 s

/-- The outcome of `poll(fds, nfds, TIMEOUT)`. -/
inductive PollOutcome where
  /-- A negative return value. -/
  | failed
  /-- The `revents` stored in `fds[0] .. fds[nfds - 1]`; the return value is the
  number of entries with a non-zero `revents`. -/
  | ready (revents : List Nat)

/-- The effect of a successful `poll` on the array: `revents` of the first
`nfds` entries is overwritten. -/
def storeRevents (revents : List Nat) (nfds : Int) (fds : List PollFd) : List PollFd :=
  fds.enum.map (fun p =>
    if (p.1 : Int) < nfds then { p.2 with revents := revents.getD p.1 0 } else p.2)

/-- The return value of a successful `poll`. -/
def activity (nfds : Int) (fds : List PollFd) : Nat :=
  ((fds.take nfds.toNat).filter (fun e => e.revents ≠ 0)).length

/-- One iteration of the `while (1)` loop of `server_poll.c` (lines 83-173). -/
def pollIteration (outcome : PollOutcome) (new_socket : Int)
    (rd : Int → ReadResult) (s : PollServer) : Run PollServer :=
  match outcome with
  | .failed => Run.done s
  | .ready revents =>
    let s0 := { s with fds := storeRevents revents s.nfds s.fds }
    if activity s0.nfds s0.fds = 0 then Run.done s0
    else
      match pollAccept new_socket s0 with
      | none => Run.undefinedBehaviour
      | some s1 => pollDispatch rd s1

/-- The handles of the client entries `fds[1] .. fds[nfds - 1]`, in the order
in which a dispatch pass visits them. -/
def pollClients (s : PollServer) : List Int :=
  ((s.fds.take s.nfds.toNat).drop 1).map (fun e => e.fd)

/-! ## What a dispatch pass of `server_poll.c` is expected to do -/

/-- The response owed to the chunk read on the handle of entry `e`: the literal
followed by the chunk as a C string, cut to `BUFFER_SIZE - 1` bytes. -/
def pollReply (rd : Int → ReadResult) (e : PollFd) : List Byte :=
  (POLL_LITERAL ++ cString (readBytes (rd e.fd))).take (BUFFER_SIZE - 1)

/-- Entry `e` is answered in a pass: it is ready and its read returns data. -/
def answered (rd : Int → ReadResult) (e : PollFd) : Bool :=
  decide (e.revents &&& POLLIN ≠ 0) && decide (0 < valread (rd e.fd))

/-- Entry `e` is dropped in a pass: it is ready and its read returns 0, or it
carries an error flag. -/
def dropped (rd : Int → ReadResult) (e : PollFd) : Bool :=
  (decide (e.revents &&& POLLIN ≠ 0) && decide (valread (rd e.fd) = 0)) ||
    decide (e.revents &&& (POLLERR ||| POLLHUP ||| POLLNVAL) ≠ 0)

/-- The responses a pass over the client entries `cl` owes, in scan order. -/
def replies (rd : Int → ReadResult) (cl : List PollFd) : List (Int × List Byte) :=
  (cl.filter (answered rd)).map (fun e => (e.fd, pollReply rd e))

/-! ## Sequences of accepts and removals -/

/-- A change of the connection table: a handle returned by `accept`, or the
removal of the client entry that holds a handle. -/
inductive TableOp where
  | accept (h : Int)
  | remove (h : Int)
deriving DecidableEq, Repr

/-- One table change in `server.c`: the accept step with the listening handle
ready, or the removal statements at the slot that holds the handle. -/
def selectApply (s : SelectServer) : TableOp → SelectServer
  | .accept h => selectAccept [s.server_fd] h s
  | .remove h =>
    if s.client_sockets.indexOf h < s.client_sockets.length then
      selectRemove (s.client_sockets.indexOf h) h s
    else s

/-- A sequence of table changes in `server.c`. -/
def selectRun : List TableOp → SelectServer → SelectServer
  | [], s => s
  | op :: ops, s => selectRun ops (selectApply s op)

/-- Follows the spec's words ("insertion order modulo removals", at most
`MAX_CLIENTS` connections): the handles in the table in the order in which
they were inserted, with the removed handles deleted; an accept on a full
table inserts nothing. -/
def insertionOrder : List Int → List TableOp → List Int
  | l, [] => l
  | l, .accept h :: ops =>
    insertionOrder (if l.length < MAX_CLIENTS then l ++ [h] else l) ops
  | l, .remove h :: ops => insertionOrder (l.erase h) ops

/-- The handles removed by a sequence of table changes, in order. -/
def removedHandles : List TableOp → List Int
  | [] => []
  | TableOp.accept _ :: ops => removedHandles ops
  | TableOp.remove h :: ops => h :: removedHandles ops

/-- The handles accepted by a sequence of table changes, in order. -/
def acceptedHandles : List TableOp → List Int
  | [] => []
  | TableOp.accept h :: ops => h :: acceptedHandles ops
  | TableOp.remove _ :: ops => acceptedHandles ops

/-- The slots of `server.c` are compact: no occupied slot stands behind a
free one, so the lowest free slot lies above every client. -/
def compactTable (cs : List Int) : Bool :=
  (cs.dropWhile (fun c => c ≠ 0)).all (fun c => c = 0)

/-- A sequence of table changes of `server.c` in which every accept returns a
positive descriptor and finds the table compact, so that no slot below a
client is reused. -/
def selectNoReuse : List TableOp → SelectServer → Bool
  | [], _ => true
  | TableOp.accept h :: ops, s =>
    decide (0 < h) && compactTable s.client_sockets &&
      selectNoReuse ops (selectApply s (TableOp.accept h))
  | TableOp.remove h :: ops, s => selectNoReuse ops (selectApply s (TableOp.remove h))

/-- What one turn of the loop of `server_poll.c` receives from outside: the
`revents` stored by a successful `poll`, the value returned by `accept`, and
what `read` returns on each handle. -/
structure IterationInput where
  revents : List Nat
  new_socket : Int
  rd : Int → ReadResult

/-- A sequence of turns of the loop of `server_poll.c`. -/
def pollIterations : List IterationInput → PollServer → Run PollServer
  | [], s => Run.done s
  | x :: xs, s =>
    match pollIteration (PollOutcome.ready x.revents) x.new_socket x.rd s with
    | Run.done s1 => pollIterations xs s1
    | Run.undefinedBehaviour => Run.undefinedBehaviour
    | Run.outOfFuel => Run.outOfFuel

/-- The table changes made by one turn of the loop that led from `s` to `s1`,
read off the run: the accept, when the listening entry was reported ready and
`accept` returned a handle, and then the removal of every handle the turn
closed, in the order of the `close` calls. -/
def iterationOps (x : IterationInput) (s s1 : PollServer) : List TableOp :=
  (if x.revents.getD 0 0 &&& POLLIN ≠ 0 ∧ 0 ≤ x.new_socket
    then [TableOp.accept x.new_socket] else []) ++
  (s1.closed.drop s.closed.length).map TableOp.remove

/-- The table changes made by a sequence of turns of the loop. -/
def pollOps : List IterationInput → PollServer → List TableOp
  | [], _ => []
  | x :: xs, s =>
    match pollIteration (PollOutcome.ready x.revents) x.new_socket x.rd s with
    | Run.done s1 => iterationOps x s s1 ++ pollOps xs s1
    | Run.undefinedBehaviour => []
    | Run.outOfFuel => []

/-- The input of a turn is healthy for the table `s`: `poll` reports no error
flag on the listening entry, every chunk read on a handle of the table or on
the new handle is shorter than `BUFFER_SIZE`, and a handle returned by
`accept` is not already in the table. -/
def healthyInput (x : IterationInput) (s : PollServer) : Bool :=
  decide (x.revents.getD 0 0 &&& (POLLERR ||| POLLHUP ||| POLLNVAL) = 0) &&
  (x.new_socket :: pollClients s).all
    (fun fd => decide ((readBytes (x.rd fd)).length < BUFFER_SIZE)) &&
  (decide (x.new_socket < 0) || !(pollClients s).contains x.new_socket)

/-- Every input of a run is healthy for the table it meets. -/
def healthyRun : List IterationInput → PollServer → Bool
  | [], _ => true
  | x :: xs, s =>
    healthyInput x s &&
    match pollIteration (PollOutcome.ready x.revents) x.new_socket x.rd s with
    | Run.done s1 => healthyRun xs s1
    | Run.undefinedBehaviour => true
    | Run.outOfFuel => true

/-! ## `client.c` and `client_poll.c` -/

/-- The function `strncmp(s, t, n)` on C strings; the end of a list counts as the
terminator. -/
def strncmp : List Byte → List Byte → Nat → Int
  | _, _, 0 => 0
  | s, t, n + 1 =>
    if s.headD 0 ≠ t.headD 0 then (s.headD 0 : Int) - (t.headD 0 : Int)
    else if s.headD 0 = 0 then 0
    else strncmp s.tail t.tail n

/-- What the standard-input block of the client loop did. -/
structure StdinStep where
  /-- The bytes handed to `send`, if `send` was called. -/
  sent : Option (List Byte)
  /-- Whether the loop goes on (`false` after a `break`). -/
  running : Bool
deriving DecidableEq, Repr

/-- The standard-input block of the client loop (`client.c` lines 111-130,
`client_poll.c` lines 108-127, the same statements), once standard input is
ready:
```
memset(buffer, 0, BUFFER_SIZE);
if (fgets(buffer, BUFFER_SIZE, stdin) != NULL) {
  if (strncmp(buffer, "quit", 4) == 0) break;
  int sent = send(sock, buffer, strlen(buffer), 0);
  if (sent < 0) { if (errno != EWOULDBLOCK && errno != EAGAIN) break; }
}
```
`line` is what `fgets` stored (`none` for `NULL`), `sendResult` and `errno`
are the return value and error number of `send`. -/
def clientStdin (line : Option (List Byte)) (sendResult errno : Int) : StdinStep :=
  match line with
  | none => { sent := none, running := true }
  | some L =>
    let buffer := readInto memsetZero L
    if strncmp buffer (bytesOf "quit") 4 = 0 then { sent := none, running := false }
    else
      let message := buffer.take (strlen buffer)
      if sendResult < 0 then
        if errno ≠ EWOULDBLOCK ∧ errno ≠ EAGAIN then { sent := some message, running := false }
        else { sent := some message, running := true }
      else { sent := some message, running := true }

/-! ## Theorems -/

/-! ### The echo transformation -/

theorem cString_append_zero (B rest : List Byte) : cString (B ++ 0 :: rest) = cString B := by
  induction B with
  | nil => simp [cString]
  | cons b bs ih =>
    by_cases hb : b = 0
    · simp [cString, hb]
    · simp only [cString] at ih ⊢
      simpa [List.takeWhile_cons, hb] using ih

theorem cString_of_noZero (x : List Byte) (h : ∀ b ∈ x, b ≠ 0) : cString x = x := by
  unfold cString
  rw [List.takeWhile_eq_self_iff]
  intro b hb
  simpa using h b hb

theorem cString_noZero (x : List Byte) : ∀ b ∈ cString x, b ≠ 0 := by
  intro b hb
  have := List.mem_takeWhile_imp hb
  simpa using this

theorem readInto_memsetZero (B : List Byte) :
    readInto memsetZero B = B ++ List.replicate (BUFFER_SIZE - B.length) 0 := by
  simp [readInto, memsetZero]

theorem storeByte_terminator (B : List Byte) (hB : B.length < BUFFER_SIZE) :
    storeByte (readInto memsetZero B) B.length 0
      = some (B ++ 0 :: List.replicate (BUFFER_SIZE - B.length - 1) 0) := by
  have hk : BUFFER_SIZE - B.length = (BUFFER_SIZE - B.length - 1) + 1 := by omega
  rw [readInto_memsetZero, hk, List.replicate_succ]
  simp [storeByte]

theorem storeByte_overflow (B : List Byte) (hB : BUFFER_SIZE ≤ B.length) :
    storeByte (readInto memsetZero B) B.length 0 = none := by
  have hk : BUFFER_SIZE - B.length = 0 := by omega
  rw [readInto_memsetZero, hk]
  simp [storeByte]

theorem echoResponse_eq (literal B : List Byte) (hlit : ∀ b ∈ literal, b ≠ 0)
    (hB : B.length < BUFFER_SIZE) :
    echoResponse literal B = some ((literal ++ cString B).take (BUFFER_SIZE - 1)) := by
  have hz : ∀ b ∈ (literal ++ cString B).take (BUFFER_SIZE - 1), b ≠ 0 := by
    intro b hb
    have hb2 := List.mem_of_mem_take hb
    rcases List.mem_append.1 hb2 with h | h
    · exact hlit b h
    · exact cString_noZero B b h
  simp only [echoResponse, storeByte_terminator B hB, snprintf, strlen, cString_append_zero]
  rw [cString_of_noZero _ hz]
  simp

theorem echoResponse_overflow (literal B : List Byte) (hB : BUFFER_SIZE ≤ B.length) :
    echoResponse literal B = none := by
  simp [echoResponse, storeByte_overflow B hB]

theorem SELECT_LITERAL_noZero : ∀ b ∈ SELECT_LITERAL, b ≠ 0 := by decide
theorem POLL_LITERAL_noZero : ∀ b ∈ POLL_LITERAL, b ≠ 0 := by decide
theorem SELECT_LITERAL_length : SELECT_LITERAL.length = 17 := by decide
theorem POLL_LITERAL_length : POLL_LITERAL.length = 24 := by decide

/-- Whatever the chunk, the response handed to `send` has at most
`BUFFER_SIZE - 1` bytes. -/
theorem echoResponse_length_le (literal B r : List Byte) (hlit : ∀ b ∈ literal, b ≠ 0)
    (h : echoResponse literal B = some r) : r.length ≤ BUFFER_SIZE - 1 := by
  by_cases hB : B.length < BUFFER_SIZE
  · rw [echoResponse_eq literal B hlit hB] at h
    cases h
    simp
  · rw [echoResponse_overflow literal B (by omega)] at h
    cases h

/-- A chunk without a zero byte that fits behind the literal is echoed whole. -/
theorem echoResponse_exact (literal B : List Byte) (hlit : ∀ b ∈ literal, b ≠ 0)
    (hz : ∀ b ∈ B, b ≠ 0) (hfit : literal.length + B.length ≤ BUFFER_SIZE - 1) :
    echoResponse literal B = some (literal ++ B) := by
  have hsize : BUFFER_SIZE = 1024 := rfl
  have hB : B.length < BUFFER_SIZE := by omega
  rw [echoResponse_eq literal B hlit hB, cString_of_noZero B hz]
  congr 1
  apply List.take_of_length_le
  simpa using hfit

/-- C1 (as stated, refuted): the response is not always the literal followed by
the chunk.  In `server.c` the one-byte chunk holding a zero byte is answered
with the bare literal, a chunk of 1007 bytes is cut to 1023 bytes of response,
and for a chunk of 1024 bytes the terminator store leaves the buffer; the same
happens in `server_poll.c`. -/
theorem echo_not_verbatim :
    echoResponse SELECT_LITERAL [0] = some SELECT_LITERAL ∧
    echoResponse SELECT_LITERAL [0] ≠ some (SELECT_LITERAL ++ [0]) ∧
    echoResponse SELECT_LITERAL (List.replicate 1007 65)
      ≠ some (SELECT_LITERAL ++ List.replicate 1007 65) ∧
    echoResponse SELECT_LITERAL (List.replicate 1024 65)
      ≠ some (SELECT_LITERAL ++ List.replicate 1024 65) ∧
    echoResponse POLL_LITERAL [0] ≠ some (POLL_LITERAL ++ [0]) ∧
    echoResponse POLL_LITERAL (List.replicate 1000 65)
      ≠ some (POLL_LITERAL ++ List.replicate 1000 65) ∧
    echoResponse POLL_LITERAL (List.replicate 1024 65)
      ≠ some (POLL_LITERAL ++ List.replicate 1024 65) := by
  have hs : echoResponse SELECT_LITERAL [0] = some SELECT_LITERAL := by
    rw [echoResponse_eq SELECT_LITERAL [0] SELECT_LITERAL_noZero (by simp [BUFFER_SIZE])]
    decide
  have hp : echoResponse POLL_LITERAL [0] = some POLL_LITERAL := by
    rw [echoResponse_eq POLL_LITERAL [0] POLL_LITERAL_noZero (by simp [BUFFER_SIZE])]
    decide
  refine ⟨hs, ?_, ?_, ?_, ?_, ?_, ?_⟩
  · rw [hs]; simp
  · intro h
    have := echoResponse_length_le _ _ _ SELECT_LITERAL_noZero h
    simp only [List.length_append, List.length_replicate, SELECT_LITERAL_length,
      BUFFER_SIZE] at this
    omega
  · rw [echoResponse_overflow _ _ (by rw [List.length_replicate]; decide)]
    intro h; cases h
  · rw [hp]; simp
  · intro h
    have := echoResponse_length_le _ _ _ POLL_LITERAL_noZero h
    simp only [List.length_append, List.length_replicate, POLL_LITERAL_length,
      BUFFER_SIZE] at this
    omega
  · rw [echoResponse_overflow _ _ (by rw [List.length_replicate]; decide)]
    intro h; cases h

/-- C1 (amended): for a chunk `B` of `1 ≤ n ≤ BUFFER_SIZE - 1` bytes the response
handed to `send` is the literal followed by the bytes of `B` in front of its
first zero byte, cut to the `BUFFER_SIZE - 1` bytes that `snprintf` stores.  It
is exactly the literal followed by `B` when `B` has no zero byte and literal
and chunk fit: `17 + n ≤ 1023` in `server.c`, `24 + n ≤ 1023` in
`server_poll.c`. -/
theorem echo_reply_of_chunk (B : List Byte) (hn : 1 ≤ B.length)
    (hlt : B.length ≤ BUFFER_SIZE - 1) :
    (∀ (readfds : List Int) (rd : Int → ReadResult) (i : Nat) (s : SelectServer) (sd : Int),
      s.client_sockets[i]? = some sd → sd ∈ readfds → rd sd = ReadResult.chunk B →
      selectBody readfds rd i s
        = some { s with sent := s.sent ++
            [(sd, (SELECT_LITERAL ++ cString B).take (BUFFER_SIZE - 1))] }) ∧
    (∀ (rd : Int → ReadResult) (i : Int) (s : PollServer) (e : PollFd),
      fdsGet s.fds i = some e → e.revents &&& POLLIN ≠ 0 → rd e.fd = ReadResult.chunk B →
      pollReadBlock rd i s
        = some ({ s with sent := s.sent ++
            [(e.fd, (POLL_LITERAL ++ cString B).take (BUFFER_SIZE - 1))] }, i)) ∧
    ((∀ b ∈ B, b ≠ 0) → SELECT_LITERAL.length + B.length ≤ BUFFER_SIZE - 1 →
      (SELECT_LITERAL ++ cString B).take (BUFFER_SIZE - 1) = SELECT_LITERAL ++ B) ∧
    ((∀ b ∈ B, b ≠ 0) → POLL_LITERAL.length + B.length ≤ BUFFER_SIZE - 1 →
      (POLL_LITERAL ++ cString B).take (BUFFER_SIZE - 1) = POLL_LITERAL ++ B) := by
  have hsize : BUFFER_SIZE = 1024 := rfl
  have hB : B.length < BUFFER_SIZE := by omega
  have hv : valread (ReadResult.chunk B) ≠ 0 := by simp only [valread]; omega
  have hv2 : valread (ReadResult.chunk B) > 0 := by simp only [valread]; omega
  refine ⟨?_, ?_, ?_, ?_⟩
  · intro readfds rd i s sd hsd hready hrd
    simp only [selectBody, hsd, hready, hrd, hv, hv2, if_true, if_false, readBytes,
      echoResponse_eq _ B SELECT_LITERAL_noZero hB]
  · intro rd i s e he hin hrd
    simp only [pollReadBlock, he, hin, hrd, hv, hv2, if_true, if_false, readBytes,
      echoResponse_eq _ B POLL_LITERAL_noZero hB, ne_eq, not_false_eq_true]
  · intro hz hfit
    rw [cString_of_noZero B hz]
    exact List.take_of_length_le (by simpa using hfit)
  · intro hz hfit
    rw [cString_of_noZero B hz]
    exact List.take_of_length_le (by simpa using hfit)

/-- C1 (witness): the chunk `hello\n` read on handle 4 in slot 0 of `server.c`. -/
theorem echo_reply_of_chunk_witness :
    selectBody [4] (fun _ => ReadResult.chunk (bytesOf "hello\n")) 0
        { server_fd := 3, client_sockets := [4, 0, 0, 0, 0, 0, 0, 0, 0, 0],
          closed := [], sent := [] }
      = some { server_fd := 3, client_sockets := [4, 0, 0, 0, 0, 0, 0, 0, 0, 0],
               closed := [],
               sent := [(4, (SELECT_LITERAL ++ cString (bytesOf "hello\n")).take
                 (BUFFER_SIZE - 1))] } ∧
    (SELECT_LITERAL ++ cString (bytesOf "hello\n")).take (BUFFER_SIZE - 1)
      = bytesOf "Server received: hello\n" :=
  ⟨(echo_reply_of_chunk (bytesOf "hello\n") (by decide) (by decide)).1
      [4] (fun _ => ReadResult.chunk (bytesOf "hello\n")) 0
      { server_fd := 3, client_sockets := [4, 0, 0, 0, 0, 0, 0, 0, 0, 0],
        closed := [], sent := [] } 4 rfl (by decide) rfl,
   (echo_reply_of_chunk (bytesOf "hello\n") (by decide) (by decide)).2.2.1
      (by decide) (by decide)⟩

/-! ### The accept step of `server.c` -/

theorem addClient_full (h : Int) (cs : List Int) (hfull : ∀ c ∈ cs, c ≠ 0) :
    addClient h cs = cs := by
  induction cs with
  | nil => rfl
  | cons c cs ih =>
    have hc : c ≠ 0 := hfull c (by simp)
    have ih2 := ih (fun x hx => hfull x (by simp [hx]))
    simp [addClient, hc, ih2]

theorem addClient_lowest (h : Int) (cs : List Int) (k : Nat) (hk : cs[k]? = some 0)
    (hlow : ∀ j, j < k → cs[j]? ≠ some 0) : addClient h cs = cs.set k h := by
  induction cs generalizing k with
  | nil => simp at hk
  | cons c cs ih =>
    cases k with
    | zero =>
      simp at hk
      simp [addClient, hk]
    | succ k =>
      have hc : c ≠ 0 := by
        have := hlow 0 (by omega)
        simpa using this
      have ih2 := ih k (by simpa using hk) (fun j hj => by
        have := hlow (j + 1) (by omega)
        simpa using this)
      simp [addClient, hc, ih2]

theorem addClient_le (h : Int) (cs : List Int) (k : Nat) (hk : cs[k]? = some 0) :
    ∃ j, j ≤ k ∧ cs[j]? = some 0 ∧ (∀ i, i < j → cs[i]? ≠ some 0) ∧
      addClient h cs = cs.set j h := by
  induction cs generalizing k with
  | nil => simp at hk
  | cons c cs ih =>
    by_cases hc : c = 0
    · exact ⟨0, by omega, by simp [hc], by intro i hi; omega, by simp [addClient, hc]⟩
    · cases k with
      | zero => simp at hk; exact absurd hk hc
      | succ k =>
        obtain ⟨j, hj, hj0, hjlow, hjeq⟩ := ih k (by simpa using hk)
        refine ⟨j + 1, by omega, by simpa using hj0, ?_, by simp [addClient, hc, hjeq]⟩
        intro i hi
        cases i with
        | zero => simpa using hc
        | succ i => simpa using hjlow i (by omega)

theorem addClient_append (h : Int) (hs rest : List Int) (hpos : ∀ x ∈ hs, x ≠ 0) :
    addClient h (hs ++ 0 :: rest) = hs ++ h :: rest := by
  induction hs with
  | nil => simp [addClient]
  | cons x xs ih =>
    have hx : x ≠ 0 := hpos x (by simp)
    simp [addClient, hx, ih (fun y hy => hpos y (by simp [hy]))]

/-- In `server.c` an accept on a table without a slot holding `0` changes
nothing: the handle is neither stored nor closed. -/
theorem selectAccept_full (readfds : List Int) (h : Int) (s : SelectServer)
    (hfull : ∀ c ∈ s.client_sockets, c ≠ 0) : selectAccept readfds h s = s := by
  unfold selectAccept
  split
  · split
    · rfl
    · rw [addClient_full h _ hfull]
  · rfl

/-! ### The accept step of `server_poll.c` -/

theorem fdsGet_natCast (fds : List PollFd) (n : Nat) : fdsGet fds (n : Int) = fds[n]? := by
  simp [fdsGet]

theorem fdsSet_natCast (fds : List PollFd) (n : Nat) (e : PollFd) (hn : n < fds.length) :
    fdsSet fds (n : Int) e = some (fds.set n e) := by
  simp [fdsSet, hn]

/-- In `server_poll.c` an accept on a full table closes the new handle and
leaves the table as it was. -/
theorem pollInsert_full (h : Int) (s : PollServer) (hfull : s.nfds = MAX_CLIENTS + 1) :
    pollInsert h s = some { s with closed := s.closed ++ [h] } := by
  simp [pollInsert, hfull]

/-- In `server_poll.c` an accept on a table with room stores the handle at index
`nfds` and leaves the other entries as they were. -/
theorem pollInsert_room (h : Int) (s : PollServer) (n : Nat) (e : PollFd)
    (hn : s.nfds = (n : Int)) (hroom : n < MAX_CLIENTS + 1) (he : s.fds[n]? = some e) :
    pollInsert h s = some { s with fds := s.fds.set n { e with fd := h, events := POLLIN },
                                   nfds := s.nfds + 1 } := by
  have hlen : n < s.fds.length := by
    rcases List.getElem?_eq_some_iff.1 he with ⟨hl, _⟩
    exact hl
  have hlt : (n : Int) < (MAX_CLIENTS : Int) + 1 := by exact_mod_cast hroom
  simp [pollInsert, hn, hlt, fdsGet_natCast, he, fdsSet_natCast _ _ _ hlen]

/-- C2 (failing input, `server.c`): with the ten slots holding the handles
4 .. 13 and the listening handle 3 ready, an iteration in which `accept`
returns 14 ends in the state it started from; the trace of `close` is still
empty, so handle 14 has been neither stored nor closed. -/
theorem select_full_table_leaks_handle :
    selectIteration [3] 14 (fun _ => ReadResult.eof)
        { server_fd := 3, client_sockets := [4, 5, 6, 7, 8, 9, 10, 11, 12, 13],
          closed := [], sent := [] }
      = some { server_fd := 3, client_sockets := [4, 5, 6, 7, 8, 9, 10, 11, 12, 13],
               closed := [], sent := [] } := by
  decide

/-! ### Removal of an entry in `server_poll.c` -/

theorem fdsGet_append (pre : List PollFd) (e : PollFd) (rest : List PollFd) :
    fdsGet (pre ++ e :: rest) (pre.length : Int) = some e := by
  rw [fdsGet_natCast, List.getElem?_append_right (Nat.le_refl _)]
  simp

theorem fdsSet_append (pre : List PollFd) (e x : PollFd) (rest : List PollFd) :
    fdsSet (pre ++ e :: rest) (pre.length : Int) x = some (pre ++ x :: rest) := by
  rw [fdsSet_natCast _ _ _ (by simp)]
  simp

/-- The shifting loop started at an entry `e` followed by the entries `mid` up to
index `nfds - 1`: the entries of `mid` move down by one and the last of them
stays behind as a copy. -/
theorem shiftFrom_decomp (mid : List PollFd) :
    ∀ (pre : List PollFd) (e : PollFd) (junk : List PollFd),
      shiftFrom (pre ++ e :: (mid ++ junk)) (pre.length : Int) mid.length
        = some (pre ++ (mid ++ mid.getLastD e :: junk)) := by
  induction mid with
  | nil => intro pre e junk; simp [shiftFrom]
  | cons m ms ih =>
    intro pre e junk
    have h1 : fdsGet (pre ++ e :: (m :: ms ++ junk)) ((pre.length : Int) + 1) = some m := by
      have := fdsGet_append (pre ++ [e]) m (ms ++ junk)
      simpa using this
    have h2 : fdsSet (pre ++ e :: (m :: ms ++ junk)) (pre.length : Int) m
        = some ((pre ++ [m]) ++ m :: (ms ++ junk)) := by
      rw [fdsSet_append]; simp
    have h3 := ih (pre ++ [m]) m junk
    have h4 : (((pre ++ [m]).length : Nat) : Int) = (pre.length : Int) + 1 := by simp
    rw [h4] at h3
    simp only [List.length_cons, shiftFrom, h1, h2, h3]
    rw [List.getLastD_cons]
    simp only [List.append_assoc, List.cons_append, List.nil_append]

/-- The removal block at the index of an entry `e` that has the entries `pre`
in front of it and the entries `mid` between it and index `nfds - 1`: `e.fd` is
closed, `e` leaves the array, the order of the other entries is kept. -/
theorem removeEntry_decomp (s : PollServer) (pre mid junk : List PollFd) (e : PollFd)
    (hfds : s.fds = pre ++ e :: (mid ++ junk))
    (hn : s.nfds = (pre.length : Int) + 1 + (mid.length : Int)) :
    removeEntry (pre.length : Int) s
      = some ({ s with fds := pre ++ (mid ++ { mid.getLastD e with fd := -1 } :: junk),
                       nfds := s.nfds - 1,
                       closed := s.closed ++ [e.fd] }, (pre.length : Int) - 1) := by
  have hc : (s.nfds - 1 - (pre.length : Int)).toNat = mid.length := by omega
  have hl : s.nfds - 1 = (((pre ++ mid).length : Nat) : Int) := by
    simp only [List.length_append, Nat.cast_add]; omega
  have hg : fdsGet (pre ++ (mid ++ mid.getLastD e :: junk)) (s.nfds - 1)
      = some (mid.getLastD e) := by
    rw [hl, ← List.append_assoc]; exact fdsGet_append _ _ _
  have hs : fdsSet (pre ++ (mid ++ mid.getLastD e :: junk)) (s.nfds - 1)
      { mid.getLastD e with fd := -1 }
      = some (pre ++ (mid ++ { mid.getLastD e with fd := -1 } :: junk)) := by
    rw [hl, ← List.append_assoc, fdsSet_append]; simp
  simp only [removeEntry, hfds, fdsGet_append, hc, shiftFrom_decomp, hg, hs]

/-! ### Placement of an accepted handle -/

theorem pollAccept_ready (h : Int) (hh : 0 ≤ h) (s : PollServer) (l : PollFd)
    (hl : s.fds[0]? = some l) (hin : l.revents &&& POLLIN ≠ 0) :
    pollAccept h s = pollInsert h s := by
  have h0 : fdsGet s.fds 0 = some l := by
    have := fdsGet_natCast s.fds 0
    simpa [hl] using this
  have hneg : ¬ h < 0 := by omega
  simp only [pollAccept, h0, hneg, if_false]
  simp [hin]

/-- C5: an accepted handle `h` is stored in the lowest-numbered client slot
that was free before the accept step, and nothing else changes: in `server.c`
the lowest slot holding `0` (first part), in `server_poll.c` index `nfds`
(third part).  Consequently a handle accepted after a slot was freed lands at
an index not above the freed slot: in `server.c`, after slot `k` was set to `0`,
at an index `≤ k` (second part); in `server_poll.c`, where a removal moves the
later entries down and frees the last used index `nfds - 1`, exactly at that
index (fourth part). -/
theorem accept_lowest_free (h : Int) (hh : 0 ≤ h) :
    (∀ (readfds : List Int) (s : SelectServer) (k : Nat),
      s.server_fd ∈ readfds → s.client_sockets[k]? = some 0 →
      (∀ j, j < k → s.client_sockets[j]? ≠ some 0) →
      selectAccept readfds h s = { s with client_sockets := s.client_sockets.set k h }) ∧
    (∀ (readfds : List Int) (s : SelectServer) (k : Nat) (sd : Int),
      s.server_fd ∈ readfds → k < s.client_sockets.length →
      ∃ j, j ≤ k ∧ selectAccept readfds h (selectRemove k sd s)
        = { selectRemove k sd s with
            client_sockets := (selectRemove k sd s).client_sockets.set j h }) ∧
    (∀ (s : PollServer) (n : Nat) (l e : PollFd),
      s.nfds = (n : Int) → n < MAX_CLIENTS + 1 → s.fds[n]? = some e →
      s.fds[0]? = some l → l.revents &&& POLLIN ≠ 0 →
      pollAccept h s
        = some { s with fds := s.fds.set n { e with fd := h, events := POLLIN },
                        nfds := s.nfds + 1 }) ∧
    (∀ (s : PollServer) (l e : PollFd) (pre mid junk : List PollFd),
      s.fds = pre ++ e :: (mid ++ junk) →
      s.nfds = (pre.length : Int) + 1 + (mid.length : Int) →
      s.nfds ≤ (MAX_CLIENTS : Int) + 1 → pre[0]? = some l → l.revents &&& POLLIN ≠ 0 →
      (removeEntry (pre.length : Int) s).bind (fun p => pollAccept h p.1)
        = some { s with
            fds := pre ++ (mid ++ { mid.getLastD e with fd := h, events := POLLIN } :: junk),
            closed := s.closed ++ [e.fd] }) := by
  refine ⟨?_, ?_, ?_, ?_⟩
  · intro readfds s k hready hk hlow
    have hneg : ¬ h < 0 := by omega
    simp only [selectAccept, hready, hneg, if_true, if_false,
      addClient_lowest h s.client_sockets k hk hlow]
  · intro readfds s k sd hready hk
    have hfree : (selectRemove k sd s).client_sockets[k]? = some 0 := by
      simp [selectRemove, hk]
    obtain ⟨j, hj, _, _, hjeq⟩ := addClient_le h _ k hfree
    have hneg : ¬ h < 0 := by omega
    have hready2 : (selectRemove k sd s).server_fd ∈ readfds := hready
    exact ⟨j, hj, by simp only [selectAccept, hready2, hneg, if_true, if_false, hjeq]⟩
  · intro s n l e hn hroom he hl hin
    rw [pollAccept_ready h hh s l hl hin, pollInsert_room h s n e hn hroom he]
  · intro s l e pre mid junk hfds hn hcap hl hin
    have hpre : 0 < pre.length := by
      rcases List.getElem?_eq_some_iff.1 hl with ⟨h0, _⟩
      exact h0
    rw [removeEntry_decomp s pre mid junk e hfds hn]
    simp only [Option.some_bind]
    rw [pollAccept_ready h hh _ l (by simp [List.getElem?_append_left hpre, hl]) hin]
    have hidx : (pre ++ (mid ++ { mid.getLastD e with fd := -1 } :: junk))[pre.length + mid.length]?
        = some { mid.getLastD e with fd := -1 } := by
      rw [← List.append_assoc, ← List.length_append,
        List.getElem?_append_right (Nat.le_refl _)]
      simp
    have hroom : pre.length + mid.length < MAX_CLIENTS + 1 := by
      have : ((pre.length + mid.length : Nat) : Int) < (MAX_CLIENTS : Int) + 1 := by
        push_cast; omega
      exact_mod_cast this
    rw [pollInsert_room h _ (pre.length + mid.length) _ (by simp only; push_cast; omega)
      hroom hidx]
    simp only [Option.some.injEq]
    have hset : (pre ++ (mid ++ { mid.getLastD e with fd := -1 } :: junk)).set
        (pre.length + mid.length)
          { ({ mid.getLastD e with fd := -1 } : PollFd) with fd := h, events := POLLIN }
        = pre ++ (mid ++ { mid.getLastD e with fd := h, events := POLLIN } :: junk) := by
      rw [← List.append_assoc, ← List.length_append, List.set_append_right _ _ (Nat.le_refl _)]
      simp
    rw [hset]
    congr 1
    omega

/-- C5 (witness): handle 7 accepted by `server.c` while the slots 1 and 3 .. 9
are free is stored in slot 1; accepted by `server_poll.c` with one client in
the table (`nfds = 2`) it is stored at index 2. -/
theorem accept_lowest_free_witness :
    selectAccept [3] 7
        { server_fd := 3, client_sockets := [4, 0, 6, 0, 0, 0, 0, 0, 0, 0],
          closed := [], sent := [] }
      = { server_fd := 3, client_sockets := [4, 7, 6, 0, 0, 0, 0, 0, 0, 0],
          closed := [], sent := [] } ∧
    pollAccept 7
        { server_fd := 3,
          fds := { fd := 3, events := POLLIN, revents := POLLIN } ::
            { fd := 4, events := POLLIN, revents := 0 } ::
            List.replicate 9 { fd := -1, events := POLLIN, revents := 0 },
          nfds := 2, closed := [], sent := [] }
      = some
        { server_fd := 3,
          fds := { fd := 3, events := POLLIN, revents := POLLIN } ::
            { fd := 4, events := POLLIN, revents := 0 } ::
            { fd := 7, events := POLLIN, revents := 0 } ::
            List.replicate 8 { fd := -1, events := POLLIN, revents := 0 },
          nfds := 3, closed := [], sent := [] } :=
  ⟨(accept_lowest_free 7 (by decide)).1 [3]
      { server_fd := 3, client_sockets := [4, 0, 6, 0, 0, 0, 0, 0, 0, 0],
        closed := [], sent := [] } 1 (by decide) (by decide) (by decide),
   (accept_lowest_free 7 (by decide)).2.2.1
      { server_fd := 3,
        fds := { fd := 3, events := POLLIN, revents := POLLIN } ::
          { fd := 4, events := POLLIN, revents := 0 } ::
          List.replicate 9 { fd := -1, events := POLLIN, revents := 0 },
        nfds := 2, closed := [], sent := [] }
      2 { fd := 3, events := POLLIN, revents := POLLIN }
      { fd := -1, events := POLLIN, revents := 0 } rfl (by decide) rfl rfl (by decide)⟩

/-! ### Sequences of accepts and removals -/

theorem pollClients_table (s : PollServer) (L : PollFd) (cl junk : List PollFd)
    (hfds : s.fds = L :: (cl ++ junk)) (hn : s.nfds = (cl.length : Int) + 1) :
    pollClients s = cl.map (fun e => e.fd) := by
  have h1 : s.nfds.toNat = cl.length + 1 := by omega
  simp [pollClients, hfds, h1]

theorem indexOf_split (h : Int) (cl : List PollFd) :
    (cl.map (fun e => e.fd)).indexOf h < (cl.map (fun e => e.fd)).length →
    ∃ pre e mid, cl = pre ++ e :: mid ∧ pre.length = (cl.map (fun e => e.fd)).indexOf h ∧
      e.fd = h ∧ (cl.map (fun e => e.fd)).erase h = (pre ++ mid).map (fun e => e.fd) := by
  induction cl with
  | nil => intro hlt; simp at hlt
  | cons c cs ih =>
    intro hlt
    by_cases hc : c.fd = h
    · exact ⟨[], c, cs, by simp, by simp [List.indexOf_cons, hc], hc, by simp [hc]⟩
    · have hidx : ((c :: cs).map (fun e => e.fd)).indexOf h
          = (cs.map (fun e => e.fd)).indexOf h + 1 := by
        simp [List.indexOf_cons, hc]
      rw [hidx] at hlt
      obtain ⟨pre, e, mid, h1, h2, h3, h4⟩ := ih (by simpa using hlt)
      refine ⟨c :: pre, e, mid, by simp [h1], by rw [hidx, ← h2]; simp, h3, ?_⟩
      have hne : ¬ (c.fd == h) = true := by simpa using hc
      simp only [List.map_cons, List.erase_cons, hne, if_false, h4, List.cons_append,
        Bool.false_eq_true]

theorem pollInit_table (server_fd : Int) (garbage : Nat) :
    (PollServer.init server_fd garbage).fds
      = { fd := server_fd, events := POLLIN, revents := garbage } ::
        (([] : List PollFd) ++
          List.replicate MAX_CLIENTS { fd := -1, events := POLLIN, revents := garbage }) := rfl

theorem filter_handles (p : Int → Bool) (hs : List Int) (n : Nat)
    (hp : ∀ h ∈ hs, p h = true) (h0 : p 0 = false) :
    (hs ++ List.replicate n 0).filter p = hs := by
  rw [List.filter_append, List.filter_eq_self.2 hp]
  have : (List.replicate n (0 : Int)).filter p = [] := by
    rw [List.filter_eq_nil_iff]
    intro a ha
    rw [List.eq_of_mem_replicate ha, h0]
    simp
  rw [this]
  simp

/-- C9 (as stated, refuted): in `server.c` the handles 4, 5, 6 are accepted,
4 is removed and 7 is accepted; 7 takes the freed slot 0, so the dispatch pass
visits 7, 5, 6, whereas the surviving handles were inserted in the order
5, 6, 7. -/
theorem select_reuse_breaks_insertion_order :
    selectVisitOrder (selectRun [TableOp.accept 4, TableOp.accept 5, TableOp.accept 6,
        TableOp.remove 4, TableOp.accept 7] (SelectServer.init 3)) = [7, 5, 6] ∧
    insertionOrder [] [TableOp.accept 4, TableOp.accept 5, TableOp.accept 6,
        TableOp.remove 4, TableOp.accept 7] = [5, 6, 7] ∧
    selectVisitOrder (selectRun [TableOp.accept 4, TableOp.accept 5, TableOp.accept 6,
        TableOp.remove 4, TableOp.accept 7] (SelectServer.init 3))
      ≠ insertionOrder [] [TableOp.accept 4, TableOp.accept 5, TableOp.accept 6,
        TableOp.remove 4, TableOp.accept 7] := by
  decide

/-! ### Read errors and error flags -/

/-- C4 (as stated, refuted): a read that fails with `ECONNRESET` (104), which is
not the would-block error, on the ready client 4 closes nothing and leaves the
slot occupied, in `server.c` and in `server_poll.c`. -/
theorem read_error_keeps_slot :
    selectDispatch [4] (fun _ => ReadResult.error 104)
        { server_fd := 3, client_sockets := [4, 0, 0, 0, 0, 0, 0, 0, 0, 0],
          closed := [], sent := [] }
      = some { server_fd := 3, client_sockets := [4, 0, 0, 0, 0, 0, 0, 0, 0, 0],
               closed := [], sent := [] } ∧
    pollDispatch (fun _ => ReadResult.error 104)
        { server_fd := 3,
          fds := { fd := 3, events := POLLIN, revents := 0 } ::
            { fd := 4, events := POLLIN, revents := POLLIN } ::
            List.replicate 9 { fd := -1, events := POLLIN, revents := 0 },
          nfds := 2, closed := [], sent := [] }
      = Run.done
        { server_fd := 3,
          fds := { fd := 3, events := POLLIN, revents := 0 } ::
            { fd := 4, events := POLLIN, revents := POLLIN } ::
            List.replicate 9 { fd := -1, events := POLLIN, revents := 0 },
          nfds := 2, closed := [], sent := [] } := by
  decide

/-- C4 (amended): a negative result of `read`, whatever the error number
(would-block or not), closes nothing, sends nothing and leaves the table as it
was; in `server_poll.c` this holds for a slot whose `revents` carries none of
the flags `POLLERR`, `POLLHUP`, `POLLNVAL`. -/
theorem negative_read_is_ignored (rd : Int → ReadResult) :
    (∀ (readfds : List Int) (i : Nat) (s : SelectServer) (sd : Int),
      s.client_sockets[i]? = some sd → valread (rd sd) < 0 →
      selectBody readfds rd i s = some s) ∧
    (∀ (i : Int) (s : PollServer) (e : PollFd),
      fdsGet s.fds i = some e → valread (rd e.fd) < 0 →
      e.revents &&& (POLLERR ||| POLLHUP ||| POLLNVAL) = 0 →
      pollBody rd i s = some (s, i)) := by
  constructor
  · intro readfds i s sd hsd hneg
    have h0 : valread (rd sd) ≠ 0 := by omega
    have h1 : ¬ valread (rd sd) > 0 := by omega
    simp only [selectBody, hsd, h0, h1, if_false, ite_self]
  · intro i s e he hneg herr
    have h0 : valread (rd e.fd) ≠ 0 := by omega
    have h1 : ¬ valread (rd e.fd) > 0 := by omega
    have hread : pollReadBlock rd i s = some (s, i) := by
      simp only [pollReadBlock, he, h0, h1, if_false, ite_self]
    simp only [pollBody, he, hread, pollErrorBlock, herr, ne_eq, not_true_eq_false, if_false,
      ite_self]

/-- C4 (witness): a would-block result on the ready client 4 of `server.c`. -/
theorem negative_read_is_ignored_witness :
    selectBody [4] (fun _ => ReadResult.error EWOULDBLOCK) 0
        { server_fd := 3, client_sockets := [4, 0, 0, 0, 0, 0, 0, 0, 0, 0],
          closed := [], sent := [] }
      = some { server_fd := 3, client_sockets := [4, 0, 0, 0, 0, 0, 0, 0, 0, 0],
               closed := [], sent := [] } :=
  (negative_read_is_ignored (fun _ => ReadResult.error EWOULDBLOCK)).1 [4] 0
    { server_fd := 3, client_sockets := [4, 0, 0, 0, 0, 0, 0, 0, 0, 0],
      closed := [], sent := [] } 4 rfl (by decide)

/-! ### The clients -/

theorem strncmp_eq_zero_iff (t : List Byte) (ht : ∀ b ∈ t, b ≠ 0) :
    ∀ (s : List Byte), strncmp s t t.length = 0 ↔ s.take t.length = t := by
  induction t with
  | nil => intro s; simp [strncmp]
  | cons b t ih =>
    intro s
    have hb : b ≠ 0 := ht b (by simp)
    have ih2 := ih (fun x hx => ht x (by simp [hx]))
    cases s with
    | nil =>
      have hb2 : (0 : Nat) ≠ b := fun h => hb h.symm
      simp only [List.length_cons, strncmp, List.headD_nil, List.headD_cons, ne_eq, hb2,
        not_false_eq_true, if_true, List.take_nil]
      constructor
      · intro h
        simp at h
        exact absurd h hb
      · intro h; cases h
    | cons a s =>
      by_cases hab : a = b
      · subst hab
        simp only [List.length_cons, strncmp, List.headD_cons, ne_eq, not_true_eq_false,
          if_false, hb, List.tail_cons, List.take_succ_cons, List.cons.injEq, true_and]
        exact ih2 s
      · simp only [List.length_cons, strncmp, List.headD_cons, ne_eq, hab, not_false_eq_true,
          if_true, List.take_succ_cons, List.cons.injEq, false_and, iff_false]
        intro h
        have h2 : (a : Int) = (b : Int) := by omega
        exact hab (by exact_mod_cast h2)

theorem take_append_zeros (L t : List Byte) (k : Nat) (ht : ∀ b ∈ t, b ≠ 0) :
    (L ++ List.replicate k 0).take t.length = t ↔ L.take t.length = t := by
  by_cases hle : t.length ≤ L.length
  · rw [List.take_append_of_le_length hle]
  · have hshort : L.length < t.length := by omega
    constructor
    · intro h
      rw [List.take_append_eq_append_take, List.take_of_length_le (by omega)] at h
      have hmem : ∀ x ∈ List.take (t.length - L.length) (List.replicate k (0 : Byte)), x ∈ t := by
        intro x hx
        rw [← h]
        exact List.mem_append_right _ hx
      cases hz : List.take (t.length - L.length) (List.replicate k (0 : Byte)) with
      | nil =>
        rw [hz] at h
        have := congrArg List.length h
        simp at this
        omega
      | cons z zs =>
        have hz1 : z ∈ List.take (t.length - L.length) (List.replicate k (0 : Byte)) := by
          rw [hz]; simp
        have hz0 : z = 0 := List.eq_of_mem_replicate (List.mem_of_mem_take hz1)
        exact absurd hz0 (ht z (hmem z hz1))
    · intro h
      have := congrArg List.length h
      rw [List.take_of_length_le (by omega)] at this
      omega

theorem take_strlen (l : List Byte) : l.take (strlen l) = cString l := by
  induction l with
  | nil => simp [strlen, cString]
  | cons a l ih =>
    by_cases ha : a = 0
    · simp [strlen, cString, ha]
    · simp only [strlen, cString] at ih ⊢
      simpa [List.takeWhile_cons, ha] using ih

theorem bytesOf_quit_noZero : ∀ b ∈ bytesOf "quit", b ≠ 0 := by decide

theorem bytesOf_quit_length : (bytesOf "quit").length = 4 := by decide

/-- C10 (as stated, refuted): the line `quitting\n` makes the client leave its
loop without a call of `send`. -/
theorem quitting_line_stops_client :
    clientStdin (some (bytesOf "quitting\n")) 0 0 = { sent := none, running := false } := by
  decide

/-- C10 (amended): for every line `L` that `fgets` stores (fewer than
`BUFFER_SIZE` bytes): if the first four bytes of `L` are `quit` the client leaves
its loop without sending anything; otherwise it hands the bytes of `L` up to its
first zero byte (all of `L` when it has none) to `send`, and it keeps running
unless `send` fails with an error other than would-block. -/
theorem client_line_handling (L : List Byte) (hlen : L.length < BUFFER_SIZE)
    (sendResult errno : Int) :
    (L.take 4 = bytesOf "quit" →
      clientStdin (some L) sendResult errno = { sent := none, running := false }) ∧
    (L.take 4 ≠ bytesOf "quit" →
      (clientStdin (some L) sendResult errno).sent = some (cString L) ∧
      ((∀ b ∈ L, b ≠ 0) → (clientStdin (some L) sendResult errno).sent = some L) ∧
      ((clientStdin (some L) sendResult errno).running = true ↔
        ¬ (sendResult < 0 ∧ errno ≠ EWOULDBLOCK ∧ errno ≠ EAGAIN))) := by
  have hcmp : strncmp (readInto memsetZero L) (bytesOf "quit") 4 = 0
      ↔ L.take 4 = bytesOf "quit" := by
    have h1 := strncmp_eq_zero_iff (bytesOf "quit") bytesOf_quit_noZero (readInto memsetZero L)
    have h2 := take_append_zeros L (bytesOf "quit") (BUFFER_SIZE - L.length) bytesOf_quit_noZero
    rw [bytesOf_quit_length] at h1 h2
    rw [h1, readInto_memsetZero, h2]
  have hmsg : (readInto memsetZero L).take (strlen (readInto memsetZero L)) = cString L := by
    have hk : BUFFER_SIZE - L.length = (BUFFER_SIZE - L.length - 1) + 1 := by omega
    rw [take_strlen, readInto_memsetZero, hk, List.replicate_succ, cString_append_zero]
  constructor
  · intro hq
    simp only [clientStdin, hcmp.2 hq, if_true]
  · intro hq
    have hne : ¬ strncmp (readInto memsetZero L) (bytesOf "quit") 4 = 0 := fun h => hq (hcmp.1 h)
    have hsent : (clientStdin (some L) sendResult errno).sent = some (cString L) := by
      simp only [clientStdin, hne, if_false, hmsg]
      split
      · split <;> rfl
      · rfl
    refine ⟨hsent, ?_, ?_⟩
    · intro hz
      rw [hsent, cString_of_noZero L hz]
    · simp only [clientStdin, hne, if_false]
      by_cases hs : sendResult < 0
      · by_cases he : errno ≠ EWOULDBLOCK ∧ errno ≠ EAGAIN
        · simp [hs, he]
        · simp only [hs, he, if_true, if_false, true_and, not_false_eq_true]
      · simp [hs]

/-- C10 (witness): the line `hello\n` is sent whole and the client keeps
running. -/
theorem client_line_handling_witness :
    (clientStdin (some (bytesOf "hello\n")) 6 0).sent = some (bytesOf "hello\n") :=
  ((client_line_handling (bytesOf "hello\n") (by decide) 6 0).2 (by decide)).2.1 (by decide)

/-! ### The error check of `server_poll.c` -/

theorem pollErrorBlock_clean (i : Int) (s : PollServer) (e : PollFd)
    (he : fdsGet s.fds i = some e)
    (hclean : e.revents &&& (POLLERR ||| POLLHUP ||| POLLNVAL) = 0) :
    pollErrorBlock i s = some (s, i) := by
  simp only [pollErrorBlock, he, hclean, ne_eq, not_true_eq_false, if_false]

theorem pollErrorBlock_flagged (i : Int) (s : PollServer) (e : PollFd)
    (he : fdsGet s.fds i = some e)
    (herr : e.revents &&& (POLLERR ||| POLLHUP ||| POLLNVAL) ≠ 0) :
    pollErrorBlock i s = removeEntry i s := by
  simp only [pollErrorBlock, he, herr, ne_eq, not_false_eq_true, if_true]

/-- With `POLLERR` on the listening entry, a ready client 4 at index 1 whose
read returns 0 and an idle client 5 at index 2: the read block removes entry 1
and decrements the cursor; the error check that follows then inspects `fds[0]`,
closes the listening handle 3 and removes its entry as well, and the surviving
client 5 ends at index 0. -/
theorem poll_error_check_uses_decremented_cursor :
    pollDispatch (fun _ => ReadResult.eof)
        { server_fd := 3,
          fds := { fd := 3, events := POLLIN, revents := POLLERR } ::
            { fd := 4, events := POLLIN, revents := POLLIN } ::
            { fd := 5, events := POLLIN, revents := 0 } ::
            List.replicate 8 { fd := -1, events := POLLIN, revents := 0 },
          nfds := 3, closed := [], sent := [] }
      = Run.done
        { server_fd := 3,
          fds := { fd := 5, events := POLLIN, revents := 0 } ::
            List.replicate 10 { fd := -1, events := POLLIN, revents := 0 },
          nfds := 1, closed := [4, 3], sent := [] } := by
  decide

/-- C6 (failing input): from the initial state, a first iteration accepts the
client 4; in the second iteration `poll` reports `POLLERR` on the listening
entry and `POLLIN` on the client, whose read returns 0.  After that iteration
the listening handle 3 has been closed, `fds[0].fd` is `-1` and `nfds` is 0. -/
theorem poll_listener_closed_by_error_check :
    pollIteration (PollOutcome.ready [POLLIN]) 4 (fun _ => ReadResult.eof)
        (PollServer.init 3 0)
      = Run.done
        { server_fd := 3,
          fds := { fd := 3, events := POLLIN, revents := POLLIN } ::
            { fd := 4, events := POLLIN, revents := 0 } ::
            List.replicate 9 { fd := -1, events := POLLIN, revents := 0 },
          nfds := 2, closed := [], sent := [] } ∧
    pollIteration (PollOutcome.ready [POLLERR, POLLIN]) (-1) (fun _ => ReadResult.eof)
        { server_fd := 3,
          fds := { fd := 3, events := POLLIN, revents := POLLIN } ::
            { fd := 4, events := POLLIN, revents := 0 } ::
            List.replicate 9 { fd := -1, events := POLLIN, revents := 0 },
          nfds := 2, closed := [], sent := [] }
      = Run.done
        { server_fd := 3,
          fds := { fd := -1, events := POLLIN, revents := POLLERR } ::
            { fd := -1, events := POLLIN, revents := POLLIN } ::
            List.replicate 9 { fd := -1, events := POLLIN, revents := 0 },
          nfds := 0, closed := [4, 3], sent := [] } := by
  decide

/-! ### The dispatch pass of `server_poll.c` with a healthy listening entry -/

theorem pollReadBlock_skip (rd : Int → ReadResult) (i : Int) (s : PollServer) (e : PollFd)
    (he : fdsGet s.fds i = some e)
    (h : e.revents &&& POLLIN = 0 ∨ valread (rd e.fd) < 0) :
    pollReadBlock rd i s = some (s, i) := by
  rcases h with h | h
  · simp only [pollReadBlock, he, h, ne_eq, not_true_eq_false, if_false]
  · have h0 : valread (rd e.fd) ≠ 0 := by omega
    have h1 : ¬ valread (rd e.fd) > 0 := by omega
    simp only [pollReadBlock, he, h0, h1, if_false, ite_self]

theorem pollReadBlock_eof (rd : Int → ReadResult) (i : Int) (s : PollServer) (e : PollFd)
    (he : fdsGet s.fds i = some e) (hin : e.revents &&& POLLIN ≠ 0)
    (h0 : valread (rd e.fd) = 0) :
    pollReadBlock rd i s = removeEntry i s := by
  simp only [pollReadBlock, he, hin, h0, ne_eq, not_false_eq_true, if_true]

theorem pollReadBlock_chunk (rd : Int → ReadResult) (i : Int) (s : PollServer) (e : PollFd)
    (he : fdsGet s.fds i = some e) (hin : e.revents &&& POLLIN ≠ 0)
    (hpos : 0 < valread (rd e.fd)) (hlt : (readBytes (rd e.fd)).length < BUFFER_SIZE) :
    pollReadBlock rd i s
      = some ({ s with sent := s.sent ++ [(e.fd, pollReply rd e)] }, i) := by
  have h0 : valread (rd e.fd) ≠ 0 := by omega
  have h1 : valread (rd e.fd) > 0 := hpos
  simp only [pollReadBlock, he, hin, h0, h1, ne_eq, not_false_eq_true, if_true, if_false,
    echoResponse_eq POLL_LITERAL _ POLL_LITERAL_noZero hlt, pollReply]

/-- The loop body at a client entry `e` whose predecessor `p` carries no error
flag: `e` is answered if it is ready with data, and removed if it is dropped. -/
theorem pollBody_spec (rd : Int → ReadResult) (s : PollServer)
    (front mid junk : List PollFd) (p e : PollFd)
    (hfds : s.fds = (front ++ [p]) ++ e :: (mid ++ junk))
    (hn : s.nfds = ((front ++ [p]).length : Int) + 1 + (mid.length : Int))
    (hfd : 0 ≤ e.fd) (hlt : (readBytes (rd e.fd)).length < BUFFER_SIZE)
    (hp : p.revents &&& (POLLERR ||| POLLHUP ||| POLLNVAL) = 0) :
    pollBody rd ((front ++ [p]).length : Int) s
      = some (if dropped rd e then
          ({ s with fds := (front ++ [p]) ++ (mid ++ { mid.getLastD e with fd := -1 } :: junk),
                    nfds := s.nfds - 1,
                    closed := s.closed ++ [e.fd],
                    sent := s.sent ++ replies rd [e] }, ((front ++ [p]).length : Int) - 1)
        else ({ s with sent := s.sent ++ replies rd [e] }, ((front ++ [p]).length : Int))) := by
  have hget : fdsGet s.fds ((front ++ [p]).length : Int) = some e := by
    rw [hfds]; exact fdsGet_append _ _ _
  have hneg : ¬ e.fd < 0 := by omega
  have hidx : (((front ++ [p]).length : Nat) : Int) - 1 = (front.length : Int) := by simp
  have hprev : ∀ (rest : List PollFd),
      fdsGet ((front ++ [p]) ++ rest) ((((front ++ [p]).length : Nat) : Int) - 1) = some p := by
    intro rest
    rw [hidx, List.append_assoc, List.singleton_append]
    exact fdsGet_append _ _ _
  simp only [pollBody, hget, hneg, if_false]
  by_cases hin : e.revents &&& POLLIN ≠ 0
  · rcases lt_trichotomy (valread (rd e.fd)) 0 with hv | hv | hv
    · -- the read fails
      have hv0 : ¬ valread (rd e.fd) = 0 := by omega
      have hv1 : ¬ 0 < valread (rd e.fd) := by omega
      rw [pollReadBlock_skip rd _ s e hget (Or.inr hv)]
      simp only
      by_cases herr : e.revents &&& (POLLERR ||| POLLHUP ||| POLLNVAL) ≠ 0
      · rw [pollErrorBlock_flagged _ s e hget herr, removeEntry_decomp s _ mid junk e hfds hn]
        simp [dropped, answered, replies, hin, hv0, hv1, herr]
      · rw [pollErrorBlock_clean _ s e hget (by simpa using herr)]
        simp [dropped, answered, replies, hin, hv0, hv1, herr]
    · -- the peer has closed
      have hv1 : ¬ 0 < valread (rd e.fd) := by omega
      rw [pollReadBlock_eof rd _ s e hget hin hv, removeEntry_decomp s _ mid junk e hfds hn]
      simp only
      rw [pollErrorBlock_clean _ _ p (hprev _) hp]
      simp [dropped, answered, replies, hin, hv, hv1]
    · -- a chunk arrives
      have hv0 : ¬ valread (rd e.fd) = 0 := by omega
      rw [pollReadBlock_chunk rd _ s e hget hin hv hlt]
      simp only
      by_cases herr : e.revents &&& (POLLERR ||| POLLHUP ||| POLLNVAL) ≠ 0
      · have hflag := pollErrorBlock_flagged ((front ++ [p]).length : Int)
          { s with sent := s.sent ++ [(e.fd, pollReply rd e)] } e hget herr
        rw [hflag, removeEntry_decomp { s with sent := s.sent ++ [(e.fd, pollReply rd e)] }
          _ mid junk e hfds hn]
        simp [dropped, answered, replies, hin, hv0, hv, herr]
      · have hclean := pollErrorBlock_clean ((front ++ [p]).length : Int)
          { s with sent := s.sent ++ [(e.fd, pollReply rd e)] } e hget (by simpa using herr)
        rw [hclean]
        simp [dropped, answered, replies, hin, hv0, hv, herr]
  · have hin0 : e.revents &&& POLLIN = 0 := by simpa using hin
    rw [pollReadBlock_skip rd _ s e hget (Or.inl hin0)]
    simp only
    by_cases herr : e.revents &&& (POLLERR ||| POLLHUP ||| POLLNVAL) ≠ 0
    · rw [pollErrorBlock_flagged _ s e hget herr, removeEntry_decomp s _ mid junk e hfds hn]
      simp [dropped, answered, replies, hin0, herr]
    · rw [pollErrorBlock_clean _ s e hget (by simpa using herr)]
      simp [dropped, answered, replies, hin0, herr]

theorem replies_cons (rd : Int → ReadResult) (e : PollFd) (l : List PollFd) :
    replies rd (e :: l) = replies rd [e] ++ replies rd l := by
  by_cases h : answered rd e = true
  · simp [replies, List.filter_cons, h]
  · simp [replies, List.filter_cons, h]

/-- The dispatch loop from a cursor that has the entries `pre` (all without an
error flag) behind it and the client entries `todo` in front of it: every
entry of `todo` is visited once, the dropped ones are closed and removed in
scan order, the answered ones are answered in scan order, and the others
keep their order. -/
theorem pollDispatchFrom_spec (rd : Int → ReadResult) (todo : List PollFd) :
    ∀ (fuel : Nat) (s : PollServer) (pre junk : List PollFd),
      todo.length < fuel → pre ≠ [] →
      (∀ p ∈ pre, p.revents &&& (POLLERR ||| POLLHUP ||| POLLNVAL) = 0) →
      s.fds = pre ++ (todo ++ junk) →
      s.nfds = (pre.length : Int) + (todo.length : Int) →
      (∀ e ∈ todo, 0 ≤ e.fd) →
      (∀ e ∈ todo, (readBytes (rd e.fd)).length < BUFFER_SIZE) →
      ∃ junk1, junk1.length = junk.length + (todo.filter (dropped rd)).length ∧
        pollDispatchFrom rd fuel (pre.length : Int) s
        = Run.done { s with
            fds := pre ++ (todo.filter (fun e => !dropped rd e) ++ junk1),
            nfds := (pre.length : Int) + ((todo.filter (fun e => !dropped rd e)).length : Int),
            closed := s.closed ++ (todo.filter (dropped rd)).map (fun e => e.fd),
            sent := s.sent ++ replies rd todo } := by
  induction todo with
  | nil =>
    intro fuel s pre junk hfuel _ _ hfds hn _ _
    obtain ⟨f, rfl⟩ : ∃ f, fuel = f + 1 := ⟨fuel - 1, by simp at hfuel; omega⟩
    refine ⟨junk, by simp, ?_⟩
    have hstop : ¬ (pre.length : Int) < s.nfds := by rw [hn]; simp
    simp only [pollDispatchFrom, hstop, if_false]
    cases s
    simp_all [replies]
  | cons e todo ih =>
    intro fuel s pre junk hfuel hpre hclean hfds hn hfd hlt
    obtain ⟨f, rfl⟩ : ∃ f, fuel = f + 1 := ⟨fuel - 1, by simp at hfuel; omega⟩
    obtain ⟨front, p, rfl⟩ : ∃ front p, pre = front ++ [p] := by
      rcases List.eq_nil_or_concat pre with h | ⟨front, p, h⟩
      · exact absurd h hpre
      · exact ⟨front, p, by rw [h, List.concat_eq_append]⟩
    have hgo : ((front ++ [p]).length : Int) < s.nfds := by
      rw [hn]; simp only [List.length_cons]; push_cast; omega
    have hbody := pollBody_spec rd s front todo junk p e
      (by rw [hfds]; simp)
      (by rw [hn]; simp only [List.length_cons]; push_cast; ring)
      (hfd e (by simp)) (hlt e (by simp)) (hclean p (by simp))
    simp only [pollDispatchFrom, hgo, if_true, hbody]
    by_cases hd : dropped rd e = true
    · simp only [hd, if_true]
      have hcur : (((front ++ [p]).length : Nat) : Int) - 1 + 1 = ((front ++ [p]).length : Int) := by
        omega
      rw [hcur]
      obtain ⟨junk1, hl1, h1⟩ := ih f
        { s with fds := (front ++ [p]) ++ (todo ++ { todo.getLastD e with fd := -1 } :: junk),
                 nfds := s.nfds - 1,
                 closed := s.closed ++ [e.fd],
                 sent := s.sent ++ replies rd [e] }
        (front ++ [p]) ({ todo.getLastD e with fd := -1 } :: junk)
        (by simp at hfuel; omega) hpre hclean rfl
        (by simp only [hn, List.length_cons]; push_cast; ring)
        (fun x hx => hfd x (by simp [hx])) (fun x hx => hlt x (by simp [hx]))
      refine ⟨junk1, by simp [List.filter_cons, hd, hl1]; omega, ?_⟩
      rw [h1, replies_cons rd e todo]
      simp [List.filter_cons, hd]
    · have hd2 : dropped rd e = false := by simpa using hd
      have hce : e.revents &&& (POLLERR ||| POLLHUP ||| POLLNVAL) = 0 := by
        simp only [dropped, Bool.or_eq_false_iff, decide_eq_false_iff_not, ne_eq,
          not_not] at hd2
        exact hd2.2
      simp only [hd2, Bool.false_eq_true, if_false]
      have hcur : (((front ++ [p]).length : Nat) : Int) + 1
          = (((front ++ [p]) ++ [e]).length : Int) := by
        simp only [List.length_append, List.length_singleton]; push_cast; ring
      rw [hcur]
      obtain ⟨junk1, hl1, h1⟩ := ih f { s with sent := s.sent ++ replies rd [e] }
        ((front ++ [p]) ++ [e]) junk
        (by simp at hfuel; omega) (by simp)
        (by
          intro x hx
          rcases List.mem_append.1 hx with hx | hx
          · exact hclean x hx
          · simp at hx; rw [hx]; exact hce)
        (by simp only [hfds]; simp)
        (by simp only [hn, List.length_cons, List.length_append, List.length_singleton,
              List.length_nil]
            push_cast; ring)
        (fun x hx => hfd x (by simp [hx])) (fun x hx => hlt x (by simp [hx]))
      refine ⟨junk1, by simp [List.filter_cons, hd2, hl1], ?_⟩
      rw [h1, replies_cons rd e todo]
      simp [List.filter_cons, hd2]
      ring

/-- The dispatch pass of `server_poll.c` on a table whose listening entry
carries no error flag, whose client entries hold handles, and on which every
chunk read is shorter than `BUFFER_SIZE`: the pass ends, the dropped entries
are closed and removed, the answered ones answered, each once and in scan
order, the other entries keep their order, and `nfds` drops by the number of
removed entries. -/
theorem pollDispatch_healthy (rd : Int → ReadResult) (s : PollServer) (L : PollFd)
    (cl junk : List PollFd)
    (hfds : s.fds = L :: (cl ++ junk)) (hn : s.nfds = (cl.length : Int) + 1)
    (hL : L.revents &&& (POLLERR ||| POLLHUP ||| POLLNVAL) = 0)
    (hfd : ∀ e ∈ cl, 0 ≤ e.fd)
    (hlt : ∀ e ∈ cl, (readBytes (rd e.fd)).length < BUFFER_SIZE) :
    ∃ junk1, junk1.length = junk.length + (cl.filter (dropped rd)).length ∧
      pollDispatch rd s
      = Run.done { s with
          fds := L :: (cl.filter (fun e => !dropped rd e) ++ junk1),
          nfds := ((cl.filter (fun e => !dropped rd e)).length : Int) + 1,
          closed := s.closed ++ (cl.filter (dropped rd)).map (fun e => e.fd),
          sent := s.sent ++ replies rd cl } := by
  obtain ⟨junk1, hl1, h1⟩ := pollDispatchFrom_spec rd cl (2 * s.nfds.toNat + 1) s [L] junk
    (by omega) (by simp) (by simpa using hL) (by simpa using hfds)
    (by rw [hn]; simp; ring) hfd hlt
  refine ⟨junk1, hl1, ?_⟩
  simp only [pollDispatch]
  have h0 : (1 : Int) = (([L] : List PollFd).length : Int) := by simp
  rw [h0, h1]
  simp
  ring

theorem removeEntry_shape (i : Int) (s s1 : PollServer) (i1 : Int)
    (h : removeEntry i s = some (s1, i1)) : s1.nfds = s.nfds - 1 ∧ i1 = i - 1 := by
  unfold removeEntry at h
  split at h
  · cases h
  · split at h
    · cases h
    · split at h
      · cases h
      · split at h
        · cases h
        · simp only [Option.some.injEq, Prod.mk.injEq] at h
          obtain ⟨h1, h2⟩ := h
          subst h1
          exact ⟨rfl, h2.symm⟩

theorem pollReadBlock_shape (rd : Int → ReadResult) (i : Int) (s s1 : PollServer) (i1 : Int)
    (h : pollReadBlock rd i s = some (s1, i1)) :
    2 * s1.nfds - i1 ≤ 2 * s.nfds - i := by
  unfold pollReadBlock at h
  split at h
  · cases h
  · split at h
    · split at h
      · have := removeEntry_shape i s s1 i1 h
        omega
      · split at h
        · split at h
          · cases h
          · simp only [Option.some.injEq, Prod.mk.injEq] at h
            obtain ⟨h1, h2⟩ := h
            subst h1; subst h2
            exact Int.le_refl _
        · simp only [Option.some.injEq, Prod.mk.injEq] at h
          obtain ⟨h1, h2⟩ := h
          subst h1; subst h2
          exact Int.le_refl _
    · simp only [Option.some.injEq, Prod.mk.injEq] at h
      obtain ⟨h1, h2⟩ := h
      subst h1; subst h2
      exact Int.le_refl _

theorem pollErrorBlock_shape (i : Int) (s s1 : PollServer) (i1 : Int)
    (h : pollErrorBlock i s = some (s1, i1)) :
    2 * s1.nfds - i1 ≤ 2 * s.nfds - i := by
  unfold pollErrorBlock at h
  split at h
  · cases h
  · split at h
    · have := removeEntry_shape i s s1 i1 h
      omega
    · simp only [Option.some.injEq, Prod.mk.injEq] at h
      obtain ⟨h1, h2⟩ := h
      subst h1; subst h2
      exact Int.le_refl _

theorem pollBody_shape (rd : Int → ReadResult) (i : Int) (s s1 : PollServer) (i1 : Int)
    (h : pollBody rd i s = some (s1, i1)) :
    2 * s1.nfds - i1 ≤ 2 * s.nfds - i ∧ 0 ≤ i := by
  unfold pollBody at h
  split at h
  · cases h
  · rename_i e he
    have hi : 0 ≤ i := by
      unfold fdsGet at he
      split at he
      · assumption
      · cases he
    split at h
    · simp only [Option.some.injEq, Prod.mk.injEq] at h
      obtain ⟨h1, h2⟩ := h
      subst h1; subst h2
      exact ⟨Int.le_refl _, hi⟩
    · split at h
      · cases h
      · rename_i s2 i2 hread
        have h1 := pollReadBlock_shape rd i s s2 i2 hread
        have h2 := pollErrorBlock_shape i2 s2 s1 i1 h
        exact ⟨by omega, hi⟩

theorem pollDispatchFrom_fuel (rd : Int → ReadResult) (fuel : Nat) :
    ∀ (i : Int) (s : PollServer), (2 * s.nfds - i).toNat < fuel →
      pollDispatchFrom rd fuel i s ≠ Run.outOfFuel := by
  induction fuel with
  | zero => intro i s h; omega
  | succ fuel ih =>
    intro i s h
    unfold pollDispatchFrom
    split
    · rename_i hlt
      split
      · intro hc; cases hc
      · rename_i s1 i1 hbody
        have hshape := pollBody_shape rd i s s1 i1 hbody
        exact ih (i1 + 1) s1 (by omega)
    · intro hc; cases hc

/-- The iteration budget of the model is never used up: every dispatch pass
ends, or runs into an access outside the array. -/
theorem pollDispatch_terminates (rd : Int → ReadResult) (s : PollServer) :
    pollDispatch rd s ≠ Run.outOfFuel := by
  unfold pollDispatch
  exact pollDispatchFrom_fuel rd _ 1 s (by omega)

/-! ### The visiting order seen in the trace of `send` -/

theorem selectDispatchFrom_all_ready (readfds : List Int) (rd : Int → ReadResult)
    (h0 : (0 : Int) ∉ readfds)
    (hpos : ∀ sd, 0 < valread (rd sd))
    (hlt : ∀ sd, (readBytes (rd sd)).length < BUFFER_SIZE) (post : List Int) :
    ∀ (s : SelectServer) (pre : List Int), s.client_sockets = pre ++ post →
      (∀ sd ∈ post, sd ≠ 0 → sd ∈ readfds) →
      ∃ s1, selectDispatchFrom readfds rd pre.length post.length s = some s1 ∧
        s1.sent.map Prod.fst = s.sent.map Prod.fst ++ post.filter (fun sd => sd ≠ 0) := by
  induction post with
  | nil => intro s pre _ _; exact ⟨s, by simp [selectDispatchFrom]⟩
  | cons sd post ih =>
    intro s pre hcs hready
    have hget : s.client_sockets[pre.length]? = some sd := by
      rw [hcs, List.getElem?_append_right (Nat.le_refl _)]; simp
    have hlen : pre.length + 1 = (pre ++ [sd]).length := by simp
    by_cases hsd : sd = 0
    · have hnot : sd ∉ readfds := by rw [hsd]; exact h0
      have hbody : selectBody readfds rd pre.length s = some s := by
        simp only [selectBody, hget, hnot, if_false]
      obtain ⟨s1, h1, h2⟩ := ih s (pre ++ [sd]) (by rw [hcs]; simp)
        (fun x hx => hready x (by simp [hx]))
      refine ⟨s1, ?_, ?_⟩
      · simp only [List.length_cons, selectDispatchFrom, hbody, hlen, h1]
      · rw [h2]; simp [hsd]
    · have hin : sd ∈ readfds := hready sd (by simp) hsd
      have hv0 : valread (rd sd) ≠ 0 := by have := hpos sd; omega
      have hv1 : valread (rd sd) > 0 := hpos sd
      have hbody : selectBody readfds rd pre.length s
          = some { s with sent := s.sent ++
              [(sd, (SELECT_LITERAL ++ cString (readBytes (rd sd))).take (BUFFER_SIZE - 1))] } := by
        simp only [selectBody, hget, hin, hv0, hv1, if_true, if_false,
          echoResponse_eq SELECT_LITERAL _ SELECT_LITERAL_noZero (hlt sd)]
      obtain ⟨s1, h1, h2⟩ := ih { s with sent := s.sent ++
          [(sd, (SELECT_LITERAL ++ cString (readBytes (rd sd))).take (BUFFER_SIZE - 1))] }
        (pre ++ [sd]) (by simp only [hcs]; simp) (fun x hx => hready x (by simp [hx]))
      refine ⟨s1, ?_, ?_⟩
      · simp only [List.length_cons, selectDispatchFrom, hbody, hlen, h1]
      · rw [h2]; simp [hsd]

/-- In `server.c`, when every client is ready and every read returns data, the
pass sends its responses on the handles of the occupied slots taken by
increasing slot index. -/
theorem selectDispatch_visit_order (readfds : List Int) (rd : Int → ReadResult)
    (s : SelectServer) (hlen : s.client_sockets.length = MAX_CLIENTS)
    (h0 : (0 : Int) ∉ readfds)
    (hready : ∀ sd ∈ s.client_sockets, sd ≠ 0 → sd ∈ readfds)
    (hpos : ∀ sd, 0 < valread (rd sd))
    (hlt : ∀ sd, (readBytes (rd sd)).length < BUFFER_SIZE) :
    ∃ s1, selectDispatch readfds rd s = some s1 ∧
      s1.sent.map Prod.fst = s.sent.map Prod.fst ++ selectVisitOrder s := by
  have := selectDispatchFrom_all_ready readfds rd h0 hpos hlt s.client_sockets s [] rfl hready
  rw [hlen] at this
  exact this

/-- In `server_poll.c`, when every client entry is ready without an error
flag and every read returns data, the pass sends its responses on the handles
of `fds[1] .. fds[nfds - 1]` in that order. -/
theorem pollDispatch_visit_order (rd : Int → ReadResult) (s : PollServer) (L : PollFd)
    (cl junk : List PollFd)
    (hfds : s.fds = L :: (cl ++ junk)) (hn : s.nfds = (cl.length : Int) + 1)
    (hL : L.revents &&& (POLLERR ||| POLLHUP ||| POLLNVAL) = 0)
    (hfd : ∀ e ∈ cl, 0 ≤ e.fd) (hin : ∀ e ∈ cl, e.revents = POLLIN)
    (hpos : ∀ sd, 0 < valread (rd sd))
    (hlt : ∀ sd, (readBytes (rd sd)).length < BUFFER_SIZE) :
    ∃ s1, pollDispatch rd s = Run.done s1 ∧
      s1.sent.map Prod.fst = s.sent.map Prod.fst ++ pollClients s := by
  obtain ⟨junk1, _, h1⟩ := pollDispatch_healthy rd s L cl junk hfds hn hL hfd
    (fun e _ => hlt e.fd)
  refine ⟨_, h1, ?_⟩
  have hans : cl.filter (answered rd) = cl := by
    rw [List.filter_eq_self]
    intro e he
    have h2 : e.revents &&& POLLIN ≠ 0 := by rw [hin e he]; decide
    simp [answered, h2, hpos e.fd]
  rw [pollClients_table s L cl junk hfds hn]
  simp [replies, hans, Function.comp_def]

/-! ### Array bounds on the echo path -/

/-- In `server.c` a chunk that fills the buffer makes the loop body leave the
buffer: the store `buffer[valread] = 0` has the index `BUFFER_SIZE`. -/
theorem selectBody_full_chunk (readfds : List Int) (rd : Int → ReadResult) (i : Nat)
    (s : SelectServer) (sd : Int) (B : List Byte)
    (hsd : s.client_sockets[i]? = some sd) (hready : sd ∈ readfds)
    (hrd : rd sd = ReadResult.chunk B) (hB : B.length = BUFFER_SIZE) :
    selectBody readfds rd i s = none := by
  have hsize : BUFFER_SIZE = 1024 := rfl
  have hv : valread (ReadResult.chunk B) ≠ 0 := by simp only [valread]; omega
  have hv2 : valread (ReadResult.chunk B) > 0 := by simp only [valread]; omega
  simp only [selectBody, hsd, hready, hrd, hv, hv2, if_true, if_false, readBytes,
    echoResponse_overflow _ B (by omega)]

/-- In `server_poll.c` a chunk that fills the buffer makes the loop body leave
the buffer in the same way. -/
theorem pollBody_full_chunk (rd : Int → ReadResult) (i : Int) (s : PollServer) (e : PollFd)
    (B : List Byte) (he : fdsGet s.fds i = some e) (hfd : 0 ≤ e.fd)
    (hin : e.revents &&& POLLIN ≠ 0)
    (hrd : rd e.fd = ReadResult.chunk B) (hB : B.length = BUFFER_SIZE) :
    pollBody rd i s = none := by
  have hsize : BUFFER_SIZE = 1024 := rfl
  have hneg : ¬ e.fd < 0 := by omega
  have hv : valread (ReadResult.chunk B) ≠ 0 := by simp only [valread]; omega
  have hv2 : valread (ReadResult.chunk B) > 0 := by simp only [valread]; omega
  have hread : pollReadBlock rd i s = none := by
    simp only [pollReadBlock, he, hin, hrd, hv, hv2, ne_eq, not_false_eq_true, if_true,
      if_false, readBytes, echoResponse_overflow _ B (by omega)]
  simp only [pollBody, he, hneg, if_false, hread]

/-- For every chunk shorter than the buffer the terminator store stays inside
the buffer and the echo path produces a response. -/
theorem echoResponse_in_bounds (literal B : List Byte) (hB : B.length < BUFFER_SIZE) :
    (storeByte (readInto memsetZero B) B.length 0).isSome = true ∧
    (echoResponse literal B).isSome = true := by
  have h1 := storeByte_terminator B hB
  refine ⟨by rw [h1]; rfl, ?_⟩
  simp only [echoResponse, h1, Option.isSome_some]

set_option maxRecDepth 1000000 in
/-- C11 (failing input): a read that fills the buffer, `valread = BUFFER_SIZE =
1024`.  The store `buffer[valread] = 0` then has index 1024, outside
`char buffer[1024]`, in `server.c` and in `server_poll.c`.  In `server_poll.c`
the cursor also leaves the array: with `POLLERR` on the listening entry and
two ready clients whose reads return 0, the error check after the second
removal reads `fds[-1]`. -/
theorem terminator_store_out_of_bounds :
    storeByte (readInto memsetZero (List.replicate 1024 65))
      (List.replicate 1024 65).length 0 = none ∧
    selectBody [4] (fun _ => ReadResult.chunk (List.replicate 1024 65)) 0
        { server_fd := 3, client_sockets := [4, 0, 0, 0, 0, 0, 0, 0, 0, 0],
          closed := [], sent := [] } = none ∧
    pollDispatch (fun _ => ReadResult.chunk (List.replicate 1024 65))
        { server_fd := 3,
          fds := { fd := 3, events := POLLIN, revents := 0 } ::
            { fd := 4, events := POLLIN, revents := POLLIN } ::
            List.replicate 9 { fd := -1, events := POLLIN, revents := 0 },
          nfds := 2, closed := [], sent := [] } = Run.undefinedBehaviour ∧
    pollDispatch (fun _ => ReadResult.eof)
        { server_fd := 3,
          fds := { fd := 3, events := POLLIN, revents := POLLERR } ::
            { fd := 4, events := POLLIN, revents := POLLIN } ::
            { fd := 5, events := POLLIN, revents := POLLIN } ::
            List.replicate 8 { fd := -1, events := POLLIN, revents := 0 },
          nfds := 3, closed := [], sent := [] } = Run.undefinedBehaviour := by
  refine ⟨?_, ?_, ?_, ?_⟩
  · exact storeByte_overflow _ (by rw [List.length_replicate]; decide)
  · exact selectBody_full_chunk _ _ _ _ 4 _ rfl (by decide) rfl
      (by rw [List.length_replicate]; rfl)
  · decide
  · decide

/-! ### The dispatch pass examines every client entry once -/

theorem storeRevents_aux (revs : List Nat) (n : Int) (l : List PollFd) :
    ∀ (k : Nat),
      ((l.enumFrom k).map (fun p =>
          if (p.1 : Int) < n then { p.2 with revents := revs.getD p.1 0 } else p.2)).map
        (fun e => e.fd) = l.map (fun e => e.fd) ∧
      (n ≤ (k : Int) → (l.enumFrom k).map (fun p =>
          if (p.1 : Int) < n then { p.2 with revents := revs.getD p.1 0 } else p.2) = l) := by
  induction l with
  | nil => intro k; simp
  | cons a l ih =>
    intro k
    obtain ⟨h1, h2⟩ := ih (k + 1)
    constructor
    · simp only [List.enumFrom_cons, List.map_cons, h1, List.cons.injEq, and_true]
      split <;> rfl
    · intro hk
      have hnot : ¬ ((k : Int) < n) := by omega
      simp only [List.enumFrom_cons, List.map_cons, hnot, if_false, List.cons.injEq, true_and]
      exact h2 (by push_cast; omega)

/-- A successful `poll` overwrites `revents` of the listening entry and of the
client entries and nothing else. -/
theorem storeRevents_table (revs : List Nat) (L : PollFd) (cl junk : List PollFd) :
    ∃ cl1, storeRevents revs ((cl.length : Int) + 1) (L :: (cl ++ junk))
        = { L with revents := revs.getD 0 0 } :: (cl1 ++ junk) ∧
      cl1.map (fun e => e.fd) = cl.map (fun e => e.fd) := by
  obtain ⟨h1, _⟩ := storeRevents_aux revs ((cl.length : Int) + 1) cl 1
  obtain ⟨_, h2⟩ := storeRevents_aux revs ((cl.length : Int) + 1) junk (1 + cl.length)
  refine ⟨_, ?_, h1⟩
  have hpos : (0 : Int) < (cl.length : Int) + 1 := by omega
  simp only [storeRevents, List.enum, List.enumFrom_cons, List.map_cons, List.enumFrom_append,
    List.map_append, Nat.cast_zero, hpos, if_true, Nat.zero_add]
  rw [h2 (by push_cast; omega)]

theorem insertionOrder_removes (p : PollFd → Bool) (rest : List PollFd) :
    ∀ (pre : List Int), (pre ++ rest.map (fun e => e.fd)).Nodup →
      insertionOrder (pre ++ rest.map (fun e => e.fd))
          (((rest.filter p).map (fun e => e.fd)).map TableOp.remove)
        = pre ++ (rest.filter (fun e => !p e)).map (fun e => e.fd) := by
  induction rest with
  | nil => intro pre _; simp [insertionOrder]
  | cons e rest ih =>
    intro pre hnd
    have hnd2 : (pre ++ rest.map (fun e => e.fd)).Nodup := by
      refine hnd.sublist ?_
      exact List.Sublist.append (List.Sublist.refl pre) (by simp)
    by_cases hp : p e = true
    · have hnot : e.fd ∉ pre := by
        intro hmem
        have := List.nodup_append.1 hnd
        exact this.2.2 hmem (by simp)
      simp only [List.filter_cons, hp, if_true, List.map_cons, insertionOrder]
      rw [List.erase_append_right _ hnot, List.erase_cons_head, ih pre hnd2]
      simp [hp]
    · have hp2 : p e = false := by simpa using hp
      have hnd3 : ((pre ++ [e.fd]) ++ rest.map (fun e => e.fd)).Nodup := by simpa using hnd
      have := ih (pre ++ [e.fd]) hnd3
      simp only [List.filter_cons, hp2, Bool.false_eq_true, if_false, List.map_cons]
      simp only [List.append_assoc, List.singleton_append] at this
      rw [this]
      simp [hp2]

/-- The dispatch pass on a healthy table, with the table changes it makes. -/
theorem pollDispatch_ops (rd : Int → ReadResult) (s : PollServer) (L : PollFd)
    (cl junk : List PollFd)
    (hfds : s.fds = L :: (cl ++ junk)) (hn : s.nfds = (cl.length : Int) + 1)
    (hL : L.revents &&& (POLLERR ||| POLLHUP ||| POLLNVAL) = 0)
    (hfd : ∀ e ∈ cl, 0 ≤ e.fd)
    (hlt : ∀ e ∈ cl, (readBytes (rd e.fd)).length < BUFFER_SIZE)
    (hnd : (cl.map (fun e => e.fd)).Nodup) :
    ∃ s1 cl1 junk1 gone, pollDispatch rd s = Run.done s1 ∧
      s1.fds = L :: (cl1 ++ junk1) ∧ s1.nfds = (cl1.length : Int) + 1 ∧
      cl1.length + junk1.length = cl.length + junk.length ∧
      (∀ e ∈ cl1, 0 ≤ e.fd) ∧ (cl1.map (fun e => e.fd)).Nodup ∧
      s1.server_fd = s.server_fd ∧ s1.closed = s.closed ++ gone ∧
      cl1.map (fun e => e.fd)
        = insertionOrder (cl.map (fun e => e.fd)) (gone.map TableOp.remove) := by
  obtain ⟨junk1, hl1, h1⟩ := pollDispatch_healthy rd s L cl junk hfds hn hL hfd hlt
  refine ⟨_, cl.filter (fun e => !dropped rd e), junk1,
    (cl.filter (dropped rd)).map (fun e => e.fd), h1, rfl, rfl, ?_, ?_, ?_, rfl, rfl, ?_⟩
  · have hcount : cl.length = (cl.filter (dropped rd)).length
        + (cl.filter (fun e => !dropped rd e)).length :=
      List.length_eq_length_filter_add (dropped rd)
    omega
  · intro e he
    exact hfd e (List.mem_of_mem_filter he)
  · exact hnd.sublist (List.Sublist.map _ (List.filter_sublist _))
  · have := insertionOrder_removes (dropped rd) cl [] (by simpa using hnd)
    simpa using this.symm

theorem insertionOrder_append (a : List TableOp) :
    ∀ (l : List Int) (b : List TableOp),
      insertionOrder l (a ++ b) = insertionOrder (insertionOrder l a) b := by
  induction a with
  | nil => intro l b; simp [insertionOrder]
  | cons op a ih =>
    intro l b
    cases op with
    | accept h => simp only [List.cons_append, insertionOrder]; exact ih _ _
    | remove h => simp only [List.cons_append, insertionOrder]; exact ih _ _

/-- The accept step on a well-formed table, with the table changes it makes:
the handle is appended behind the clients, or closed when the table is full. -/
theorem pollAccept_ops (h : Int) (s : PollServer) (L : PollFd) (cl junk : List PollFd)
    (hfds : s.fds = L :: (cl ++ junk)) (hn : s.nfds = (cl.length : Int) + 1)
    (hlen : cl.length + junk.length = MAX_CLIENTS)
    (hfd : ∀ e ∈ cl, 0 ≤ e.fd) (hnd : (cl.map (fun e => e.fd)).Nodup)
    (hfresh : h < 0 ∨ h ∉ cl.map (fun e => e.fd)) :
    ∃ sA clA junkA rej, pollAccept h s = some sA ∧
      sA.fds = L :: (clA ++ junkA) ∧ sA.nfds = (clA.length : Int) + 1 ∧
      clA.length + junkA.length = MAX_CLIENTS ∧
      (∀ e ∈ clA, 0 ≤ e.fd) ∧ (clA.map (fun e => e.fd)).Nodup ∧
      (∀ e ∈ clA, e.fd = h ∨ e.fd ∈ cl.map (fun e => e.fd)) ∧
      sA.server_fd = s.server_fd ∧ sA.closed = s.closed ++ rej ∧
      clA.map (fun e => e.fd)
        = insertionOrder (cl.map (fun e => e.fd))
            ((if L.revents &&& POLLIN ≠ 0 ∧ 0 ≤ h then [TableOp.accept h] else []) ++
              rej.map TableOp.remove) := by
  have hkeep : ∀ e ∈ cl, e.fd = h ∨ e.fd ∈ cl.map (fun e => e.fd) :=
    fun e he => Or.inr (List.mem_map_of_mem _ he)
  by_cases hacc : L.revents &&& POLLIN ≠ 0 ∧ 0 ≤ h
  · obtain ⟨hin, hh⟩ := hacc
    have hnotin : h ∉ cl.map (fun e => e.fd) := by
      rcases hfresh with hneg | hf
      · omega
      · exact hf
    have hready := pollAccept_ready h hh s L (by rw [hfds]; simp) hin
    by_cases hroom : cl.length < MAX_CLIENTS
    · obtain ⟨g, junk2, rfl⟩ : ∃ g junk2, junk = g :: junk2 := by
        cases junk with
        | nil => simp at hlen; omega
        | cons g junk2 => exact ⟨g, junk2, rfl⟩
      have he : s.fds[cl.length + 1]? = some g := by
        rw [hfds, List.getElem?_cons_succ, List.getElem?_append_right (Nat.le_refl _)]
        simp
      have hstep := pollInsert_room h s (cl.length + 1) g (by rw [hn]; push_cast; ring)
        (by omega) he
      have hset : s.fds.set (cl.length + 1) { g with fd := h, events := POLLIN }
          = L :: ((cl ++ [{ g with fd := h, events := POLLIN }]) ++ junk2) := by
        rw [hfds]
        simp [List.set_append_right _ _ (Nat.le_refl _)]
      rw [hset] at hstep
      refine ⟨{ s with fds := L :: ((cl ++ [{ g with fd := h, events := POLLIN }]) ++ junk2),
                       nfds := s.nfds + 1 },
        cl ++ [{ g with fd := h, events := POLLIN }], junk2, [],
        by rw [hready, hstep], rfl, ?_, ?_, ?_, ?_, ?_, rfl, by simp, ?_⟩
      · simp only [hn, List.length_append, List.length_singleton]; push_cast; ring
      · simp at hlen ⊢; omega
      · intro e he
        rcases List.mem_append.1 he with he | he
        · exact hfd e he
        · simp at he; rw [he]; exact hh
      · rw [List.map_append, List.nodup_append]
        refine ⟨hnd, by simp, ?_⟩
        intro a ha hb
        simp at hb
        exact hnotin (hb ▸ ha)
      · intro e he
        rcases List.mem_append.1 he with he | he
        · exact hkeep e he
        · simp at he; rw [he]; exact Or.inl rfl
      · simp [insertionOrder, hin, hh, hroom]
    · have hfull : s.nfds = (MAX_CLIENTS : Int) + 1 := by
        have : cl.length = MAX_CLIENTS := by omega
        rw [hn, this]
      have hstep := pollInsert_full h s hfull
      refine ⟨{ s with closed := s.closed ++ [h] }, cl, junk, [h], by rw [hready, hstep],
        hfds, hn, hlen, hfd, hnd, hkeep, rfl, rfl, ?_⟩
      simp [insertionOrder, hin, hh, hroom, List.erase_of_not_mem hnotin]
  · have h0 : fdsGet s.fds 0 = some L := by
      have := fdsGet_natCast s.fds 0
      simpa [hfds] using this
    have hstep : pollAccept h s = some s := by
      simp only [pollAccept, h0]
      by_cases hin : L.revents &&& POLLIN ≠ 0
      · have hneg : h < 0 := by
          by_contra hc
          exact hacc ⟨hin, by omega⟩
        simp [hin, hneg]
      · simp [hin]
    refine ⟨s, cl, junk, [], hstep, hfds, hn, hlen, hfd, hnd, hkeep, rfl, by simp, ?_⟩
    simp [insertionOrder, hacc]

/-- One turn of the loop on a well-formed table and a healthy input: the turn
ends, the table stays well-formed with the listening entry at index 0, and the
client handles after the turn are those before it changed by the accept and by
the removals of the turn, in order. -/
theorem pollIteration_healthy (x : IterationInput) (s : PollServer) (L : PollFd)
    (cl junk : List PollFd)
    (hfds : s.fds = L :: (cl ++ junk)) (hn : s.nfds = (cl.length : Int) + 1)
    (hlen : cl.length + junk.length = MAX_CLIENTS)
    (hfd : ∀ e ∈ cl, 0 ≤ e.fd) (hnd : (cl.map (fun e => e.fd)).Nodup)
    (hx : healthyInput x s = true) :
    ∃ s1 L1 cl1 junk1 added,
      pollIteration (PollOutcome.ready x.revents) x.new_socket x.rd s = Run.done s1 ∧
      s1.fds = L1 :: (cl1 ++ junk1) ∧ s1.nfds = (cl1.length : Int) + 1 ∧
      cl1.length + junk1.length = MAX_CLIENTS ∧
      (∀ e ∈ cl1, 0 ≤ e.fd) ∧ (cl1.map (fun e => e.fd)).Nodup ∧
      L1.fd = L.fd ∧ s1.server_fd = s.server_fd ∧ s1.closed = s.closed ++ added ∧
      cl1.map (fun e => e.fd)
        = insertionOrder (cl.map (fun e => e.fd)) (iterationOps x s s1) := by
  obtain ⟨cl0, hstore, hmap0⟩ := storeRevents_table x.revents L cl junk
  have hcl : pollClients s = cl.map (fun e => e.fd) := pollClients_table s L cl junk hfds hn
  have hlen0 : cl0.length = cl.length := by
    have := congrArg List.length hmap0
    simpa using this
  simp only [healthyInput, Bool.and_eq_true, decide_eq_true_eq, List.all_eq_true,
    Bool.or_eq_true, Bool.not_eq_true', hcl] at hx
  obtain ⟨⟨hclean, hchunk⟩, hfresh⟩ := hx
  have hfresh2 : x.new_socket < 0 ∨ x.new_socket ∉ cl0.map (fun e => e.fd) := by
    rcases hfresh with h | h
    · exact Or.inl h
    · right
      rw [hmap0]
      intro hmem
      have : (cl.map (fun e => e.fd)).contains x.new_socket = true := by simpa using hmem
      rw [this] at h
      cases h
  have hfds0 : storeRevents x.revents s.nfds s.fds
      = { L with revents := x.revents.getD 0 0 } :: (cl0 ++ junk) := by
    rw [hfds, hn]; exact hstore
  simp only [pollIteration, hfds0]
  by_cases hact : activity s.nfds ({ L with revents := x.revents.getD 0 0 } :: (cl0 ++ junk)) = 0
  · have hr0 : x.revents.getD 0 0 = 0 := by
      by_contra hne
      have h1 : s.nfds.toNat = cl.length + 1 := by omega
      have hne2 : ¬ x.revents[0]?.getD 0 = 0 := by simpa using hne
      simp [activity, h1, List.filter_cons, hne2] at hact
    refine ⟨{ s with fds := { L with revents := x.revents.getD 0 0 } :: (cl0 ++ junk) },
      { L with revents := x.revents.getD 0 0 }, cl0, junk, [], by simp only [hact, if_true],
      rfl, by simp only [hn, hlen0], by omega, ?_, by rw [hmap0]; exact hnd, rfl, rfl, by simp, ?_⟩
    · intro e he
      have : e.fd ∈ cl.map (fun e => e.fd) := by rw [← hmap0]; exact List.mem_map_of_mem _ he
      obtain ⟨e2, he2, heq⟩ := List.mem_map.1 this
      rw [← heq]; exact hfd e2 he2
    · have hnoacc : ¬ (x.revents.getD 0 0 &&& POLLIN ≠ 0 ∧ 0 ≤ x.new_socket) := by
        rw [hr0]; simp
      simp only [iterationOps, hnoacc, if_false, List.drop_length, List.map_nil,
        List.append_nil, insertionOrder, hmap0]
  · simp only [hact, if_false]
    obtain ⟨sA, clA, junkA, rej, hA1, hA2, hA3, hA4, hA5, hA6, hA7, hA8, hA9, hA10⟩ :=
      pollAccept_ops x.new_socket
        { s with fds := { L with revents := x.revents.getD 0 0 } :: (cl0 ++ junk) }
        { L with revents := x.revents.getD 0 0 } cl0 junk rfl (by simp only [hn, hlen0])
        (by omega)
        (by
          intro e he
          have : e.fd ∈ cl.map (fun e => e.fd) := by
            rw [← hmap0]; exact List.mem_map_of_mem _ he
          obtain ⟨e2, he2, heq⟩ := List.mem_map.1 this
          rw [← heq]; exact hfd e2 he2)
        (by rw [hmap0]; exact hnd) hfresh2
    obtain ⟨s1, cl1, junk1, gone, hD1, hD2, hD3, hD4, hD5, hD6, hD7, hD8, hD9⟩ :=
      pollDispatch_ops x.rd sA { L with revents := x.revents.getD 0 0 } clA junkA hA2 hA3
        hclean hA5
        (by
          intro e he
          rcases hA7 e he with h | h
          · rw [h]; exact hchunk x.new_socket (by simp)
          · rw [hmap0] at h
            exact hchunk e.fd (by simp [h]))
        hA6
    refine ⟨s1, { L with revents := x.revents.getD 0 0 }, cl1, junk1, rej ++ gone,
      by simp only [hA1, hD1], hD2, hD3, by omega, hD5, hD6, rfl, by rw [hD7, hA8], ?_, ?_⟩
    · rw [hD8, hA9]; simp
    · have hclosed : s1.closed = s.closed ++ (rej ++ gone) := by rw [hD8, hA9]; simp
      rw [hD9, hA10, ← insertionOrder_append, hmap0]
      simp [iterationOps, hclosed]

theorem removedHandles_append (a b : List TableOp) :
    removedHandles (a ++ b) = removedHandles a ++ removedHandles b := by
  induction a with
  | nil => rfl
  | cons op a ih => cases op <;> simp [removedHandles, ih]

theorem acceptedHandles_append (a b : List TableOp) :
    acceptedHandles (a ++ b) = acceptedHandles a ++ acceptedHandles b := by
  induction a with
  | nil => rfl
  | cons op a ih => cases op <;> simp [acceptedHandles, ih]

theorem removedHandles_removes (l : List Int) :
    removedHandles (l.map TableOp.remove) = l ∧ acceptedHandles (l.map TableOp.remove) = [] := by
  induction l with
  | nil => exact ⟨rfl, rfl⟩
  | cons a l ih => simp [removedHandles, acceptedHandles, ih.1, ih.2]

theorem iterationOps_handles (x : IterationInput) (s s1 : PollServer) (added : List Int)
    (hclosed : s1.closed = s.closed ++ added) :
    removedHandles (iterationOps x s s1) = added ∧
    acceptedHandles (iterationOps x s s1)
      = if x.revents.getD 0 0 &&& POLLIN ≠ 0 ∧ 0 ≤ x.new_socket then [x.new_socket] else [] := by
  have hdrop : s1.closed.drop s.closed.length = added := by rw [hclosed]; simp
  simp only [iterationOps, hdrop, removedHandles_append, acceptedHandles_append,
    (removedHandles_removes added).1, (removedHandles_removes added).2]
  split <;> simp [removedHandles, acceptedHandles]

/-- A run of the loop of `server_poll.c` from a well-formed table on healthy
inputs: the run ends, the listening entry stays at index 0, the handles closed
are those removed by the table changes of the run, and the client handles stand
in the array in the order in which the surviving handles were inserted. -/
theorem pollIterations_healthy (ins : List IterationInput) :
    ∀ (s : PollServer) (L : PollFd) (cl junk : List PollFd),
      s.fds = L :: (cl ++ junk) → s.nfds = (cl.length : Int) + 1 →
      cl.length + junk.length = MAX_CLIENTS →
      (∀ e ∈ cl, 0 ≤ e.fd) → (cl.map (fun e => e.fd)).Nodup →
      healthyRun ins s = true →
      ∃ s1 L1 cl1 junk1, pollIterations ins s = Run.done s1 ∧
        s1.fds = L1 :: (cl1 ++ junk1) ∧ s1.nfds = (cl1.length : Int) + 1 ∧
        (cl1.map (fun e => e.fd)).Nodup ∧ L1.fd = L.fd ∧ s1.server_fd = s.server_fd ∧
        s1.closed = s.closed ++ removedHandles (pollOps ins s) ∧
        acceptedHandles (pollOps ins s)
          = (ins.filter (fun x =>
              decide (x.revents.getD 0 0 &&& POLLIN ≠ 0 ∧ 0 ≤ x.new_socket))).map
                (fun x => x.new_socket) ∧
        cl1.map (fun e => e.fd) = insertionOrder (cl.map (fun e => e.fd)) (pollOps ins s) := by
  induction ins with
  | nil =>
    intro s L cl junk hfds hn _ _ hnd _
    exact ⟨s, L, cl, junk, rfl, hfds, hn, hnd, rfl, rfl, by simp [pollOps, removedHandles],
      by simp [pollOps, acceptedHandles], by simp [pollOps, insertionOrder]⟩
  | cons x xs ih =>
    intro s L cl junk hfds hn hlen hfd hnd hrun
    have hx : healthyInput x s = true := by
      simp only [healthyRun, Bool.and_eq_true] at hrun
      exact hrun.1
    obtain ⟨s1, L1, cl1, junk1, added, h1, h2, h3, h4, h5, h6, h7, h8, h9, h10⟩ :=
      pollIteration_healthy x s L cl junk hfds hn hlen hfd hnd hx
    have hrest : healthyRun xs s1 = true := by
      simp only [healthyRun, Bool.and_eq_true, h1] at hrun
      exact hrun.2
    obtain ⟨s2, L2, cl2, junk2, k1, k2, k3, k4, k5, k6, k7, k8, k9⟩ :=
      ih s1 L1 cl1 junk1 h2 h3 h4 h5 h6 hrest
    obtain ⟨hr, ha⟩ := iterationOps_handles x s s1 added h9
    refine ⟨s2, L2, cl2, junk2, by simp only [pollIterations, h1, k1], k2, k3, k4,
      by rw [k5, h7], by rw [k6, h8], ?_, ?_, ?_⟩
    · simp only [pollOps, h1, removedHandles_append, hr, k7, h9, List.append_assoc]
    · simp only [pollOps, h1, acceptedHandles_append, ha, k8, List.filter_cons]
      by_cases hc : x.revents.getD 0 0 &&& POLLIN ≠ 0 ∧ 0 ≤ x.new_socket
      · rw [if_pos hc, if_pos (decide_eq_true hc)]
        rfl
      · rw [if_neg hc, if_neg (by simp only [decide_eq_true_eq]; exact hc)]
        rfl
    · simp only [pollOps, h1, insertionOrder_append, ← h10, k9]

/-! ### Accepts and removals in `server.c` without reuse of a lower slot -/

theorem compactTable_split (cs : List Int) (h : compactTable cs = true) :
    ∃ front n, cs = front ++ List.replicate n 0 ∧ ∀ x ∈ front, x ≠ 0 := by
  induction cs with
  | nil => exact ⟨[], 0, rfl, by simp⟩
  | cons c cs ih =>
    by_cases hc : c = 0
    · subst hc
      refine ⟨[], cs.length + 1, ?_, by simp⟩
      simp only [compactTable, ne_eq, not_true_eq_false, decide_False, List.dropWhile_cons,
        Bool.false_eq_true, if_false, List.all_cons, decide_True, Bool.true_and,
        List.all_eq_true, decide_eq_true_eq] at h
      rw [List.nil_append, List.replicate_succ]
      congr 1
      exact List.eq_replicate_iff.2 ⟨rfl, h⟩
    · have h2 : compactTable cs = true := by
        simpa [compactTable, List.dropWhile_cons, hc] using h
      obtain ⟨front, n, hcs, hfront⟩ := ih h2
      refine ⟨c :: front, n, by rw [hcs]; rfl, ?_⟩
      intro x hx
      rcases List.mem_cons.1 hx with hx | hx
      · rw [hx]; exact hc
      · exact hfront x hx

theorem filter_set_zero (h : Int) (cs : List Int) (hmem : h ∈ cs) :
    (cs.set (cs.indexOf h) 0).filter (fun sd => sd ≠ 0)
      = (cs.filter (fun sd => sd ≠ 0)).erase h := by
  induction cs with
  | nil => simp at hmem
  | cons c cs ih =>
    by_cases hc : c = h
    · subst hc
      by_cases h0 : c = 0
      · subst h0
        simp only [List.indexOf_cons, beq_self_eq_true, cond_true, List.set_cons_zero, ne_eq,
          not_true_eq_false, decide_False, List.filter_cons_of_neg, Bool.false_eq_true,
          not_false_eq_true]
        rw [List.erase_of_not_mem (by simp)]
      · simp [List.indexOf_cons, List.filter_cons, h0]
    · have hmem2 : h ∈ cs := by
        rcases List.mem_cons.1 hmem with hm | hm
        · exact absurd hm.symm hc
        · exact hm
      have hidx : (c :: cs).indexOf h = cs.indexOf h + 1 := by
        simp [List.indexOf_cons, hc]
      have hne : ¬ (c == h) = true := by simpa using hc
      rw [hidx, List.set_cons_succ]
      by_cases h0 : c = 0
      · subst h0
        simpa [List.filter_cons] using ih hmem2
      · simp only [List.filter_cons, ne_eq, h0, not_false_eq_true, decide_True, if_true,
          ih hmem2, List.erase_cons, hne, if_false, Bool.false_eq_true]

theorem addClient_length (h : Int) (cs : List Int) : (addClient h cs).length = cs.length := by
  induction cs with
  | nil => rfl
  | cons c cs ih =>
    by_cases hc : c = 0
    · simp [addClient, hc]
    · simp [addClient, hc, ih]

/-- In `server.c`, a sequence of accepts and removals in which no accept reuses a
slot below a client keeps the clients in the slots in insertion order. -/
theorem selectRun_noReuse (ops : List TableOp) :
    ∀ (s : SelectServer), s.client_sockets.length = MAX_CLIENTS →
      selectNoReuse ops s = true →
      selectVisitOrder (selectRun ops s) = insertionOrder (selectVisitOrder s) ops := by
  induction ops with
  | nil => intro s _ _; rfl
  | cons op ops ih =>
    intro s hlen hok
    cases op with
    | accept h =>
      simp only [selectNoReuse, Bool.and_eq_true, decide_eq_true_eq] at hok
      obtain ⟨⟨hpos, hcompact⟩, hrest⟩ := hok
      obtain ⟨front, n, hcs, hfront⟩ := compactTable_split _ hcompact
      have hneg : ¬ h < 0 := by omega
      have hne : h ≠ 0 := by omega
      have hstep : selectApply s (TableOp.accept h)
          = { s with client_sockets := addClient h s.client_sockets } := by
        simp only [selectApply, selectAccept, List.mem_singleton, hneg, if_true, if_false]
      have hfilter : s.client_sockets.filter (fun sd => sd ≠ 0) = front := by
        rw [hcs]
        exact filter_handles _ front n (fun x hx => by simpa using hfront x hx) (by simp)
      have hlen2 : (selectApply s (TableOp.accept h)).client_sockets.length = MAX_CLIENTS := by
        rw [hstep]; simp only [addClient_length, hlen]
      have hflen : front.length + n = MAX_CLIENTS := by
        rw [← hlen, hcs]; simp
      have hgoal : selectVisitOrder (selectApply s (TableOp.accept h))
          = (if (selectVisitOrder s).length < MAX_CLIENTS then selectVisitOrder s ++ [h]
              else selectVisitOrder s) := by
        simp only [selectVisitOrder, hstep, hfilter]
        cases n with
        | zero =>
          have hfull : addClient h s.client_sockets = s.client_sockets :=
            addClient_full h _ (by rw [hcs]; simpa using hfront)
          have hnoroom : ¬ front.length < MAX_CLIENTS := by omega
          rw [hfull, hfilter, if_neg hnoroom]
        | succ m =>
          have hroom : front.length < MAX_CLIENTS := by omega
          have hadd : addClient h s.client_sockets = (front ++ [h]) ++ List.replicate m 0 := by
            rw [hcs, List.replicate_succ, addClient_append h front _ hfront]; simp
          rw [hadd, if_pos hroom]
          exact filter_handles _ (front ++ [h]) m (fun x hx => by
            rcases List.mem_append.1 hx with hx | hx
            · simpa using hfront x hx
            · simp at hx; simp [hx, hne]) (by simp)
      rw [selectRun, ih _ hlen2 hrest, hgoal]
      simp only [insertionOrder]
    | remove h =>
      simp only [selectNoReuse] at hok
      by_cases hin : s.client_sockets.indexOf h < s.client_sockets.length
      · have hmem : h ∈ s.client_sockets := List.indexOf_lt_length.1 hin
        have hstep : selectApply s (TableOp.remove h)
            = selectRemove (s.client_sockets.indexOf h) h s := by
          simp only [selectApply, hin, if_true]
        have hlen2 : (selectApply s (TableOp.remove h)).client_sockets.length = MAX_CLIENTS := by
          rw [hstep]; simp [selectRemove, hlen]
        have hgoal : selectVisitOrder (selectApply s (TableOp.remove h))
            = (selectVisitOrder s).erase h := by
          rw [hstep]
          exact filter_set_zero h _ hmem
        rw [selectRun, ih _ hlen2 hok, hgoal]
        simp only [insertionOrder]
      · have hstep : selectApply s (TableOp.remove h) = s := by
          simp only [selectApply, hin, if_false]
        have hnot : h ∉ selectVisitOrder s := by
          intro hm
          exact hin (List.indexOf_lt_length.2 (List.mem_of_mem_filter hm))
        rw [hstep] at hok
        rw [selectRun, hstep, ih s hlen hok]
        simp only [insertionOrder, List.erase_of_not_mem hnot]

/-! ### Accepts without removals, and the order of the clients -/

/-- C9 (amended): in `server_poll.c`, after every run of the loop on healthy
inputs, the client entries stand in the array, and are visited by the dispatch
pass, in the order in which the surviving handles were inserted: the accepts
and the removals are those the turns of the loop perform.  In `server.c` the
pass visits the slots by increasing index, and the visiting order is the
insertion order of the surviving handles after every sequence of accepts and
removals in which no accept reuses a slot below a client. -/
theorem visit_order_is_insertion_order :
    (∀ (ins : List IterationInput) (server_fd : Int) (garbage : Nat),
      healthyRun ins (PollServer.init server_fd garbage) = true →
      ∃ s, pollIterations ins (PollServer.init server_fd garbage) = Run.done s ∧
        pollClients s = insertionOrder [] (pollOps ins (PollServer.init server_fd garbage))) ∧
    (∀ (ops : List TableOp) (server_fd : Int),
      selectNoReuse ops (SelectServer.init server_fd) = true →
      selectVisitOrder (selectRun ops (SelectServer.init server_fd))
        = insertionOrder [] ops) := by
  constructor
  · intro ins server_fd garbage hrun
    obtain ⟨s, L1, cl1, junk1, h1, h2, h3, _, _, _, _, _, h9⟩ :=
      pollIterations_healthy ins (PollServer.init server_fd garbage) _ [] _
        (pollInit_table server_fd garbage) (by simp [PollServer.init]) (by simp)
        (by simp) (by simp) hrun
    exact ⟨s, h1, by rw [pollClients_table s L1 cl1 junk1 h2 h3, h9]; rfl⟩
  · intro ops server_fd hok
    have := selectRun_noReuse ops (SelectServer.init server_fd)
      (by simp [SelectServer.init]) hok
    rw [this]
    congr 1

/-- C9 (witness): in `server.c` the handles 4, 5, 6 are accepted, 6 is removed,
7 is accepted and 4 is removed; in `server_poll.c` the handles 4 and 5 are
accepted in two turns and a third turn removes 4 after a zero-byte read. -/
theorem visit_order_is_insertion_order_witness :
    selectVisitOrder (selectRun [TableOp.accept 4, TableOp.accept 5, TableOp.accept 6,
        TableOp.remove 6, TableOp.accept 7, TableOp.remove 4] (SelectServer.init 3))
      = insertionOrder [] [TableOp.accept 4, TableOp.accept 5, TableOp.accept 6,
        TableOp.remove 6, TableOp.accept 7, TableOp.remove 4] ∧
    ∃ s, pollIterations
        [{ revents := [POLLIN], new_socket := 4, rd := fun _ => ReadResult.eof },
         { revents := [POLLIN, 0], new_socket := 5, rd := fun _ => ReadResult.eof },
         { revents := [0, POLLIN, 0], new_socket := -1, rd := fun _ => ReadResult.eof }]
        (PollServer.init 3 0) = Run.done s ∧
      pollClients s = insertionOrder [] (pollOps
        [{ revents := [POLLIN], new_socket := 4, rd := fun _ => ReadResult.eof },
         { revents := [POLLIN, 0], new_socket := 5, rd := fun _ => ReadResult.eof },
         { revents := [0, POLLIN, 0], new_socket := -1, rd := fun _ => ReadResult.eof }]
        (PollServer.init 3 0)) :=
  ⟨visit_order_is_insertion_order.2 _ 3 (by decide),
   visit_order_is_insertion_order.1 _ 3 0 (by decide)⟩

end EchoServer
